import Mathlib

/-!
Verification of the crawl frontier and deduplication engine of the
website-curl screenshot crawler (`src/server.js`).

The development shallowly embeds the pure core of the program:

* URL canonicalization (`normalizeUrl`, server.js lines 49-58),
* structural URL pattern classification (`getUrlPattern`, lines 63-168),
* pattern bookkeeping (`isPatternVisited` / `markPatternVisited`, lines 171-181),
* same-host link filtering (`isInternalUrl`, lines 184-192),
* link extraction post-processing (`extractLinks`, lines 195-219),
* the breadth-first crawl loop with page budget, smart dedup and
  cooperative cancellation (`crawlWebsite`, lines 256-406).

The JavaScript code relies on the WHATWG `URL` class for parsing.  That
external parser is modelled here by `parseUrlC`, an executable parser that
covers the fragment of URL syntax the crawler exercises: absolute URLs with
a special scheme (`http`, `https`, `ws`, `wss`, `ftp`) carrying an
authority, and other schemes (`javascript:`, `mailto:`, `tel:`, ...)
parsed as opaque paths.  Scheme and host are lowercased, default ports are
dropped, userinfo is stripped, the first `?` starts the query and the first
`#` starts the fragment.  Unmodelled WHATWG details (percent-encoding
normalization, dot-segment resolution, IDNA/punycode, whitespace
stripping, backslash handling, ports with leading zeros, authority syntax
for non-special schemes) do not affect the properties proved below; inputs
are taken verbatim.  The two-argument form `new URL(s, base)` is modelled
by `parseUrlWithBaseC`: the base is parsed first (the constructor throws
on an unparsable base), an input carrying the base's own special scheme
resolves relative to the base as the WHATWG scheme state prescribes, and
any other input is parsed absolutely and, failing that, resolved relative
to a special base.  Strings are processed as their underlying character
lists.
-/

abbrev Chars := List Char

/-- Characters allowed in a URL scheme (ASCII letters, digits, `+`, `-`, `.`). -/
def schemeChar (c : Char) : Bool :=
  c.isAlphanum || c == '+' || c == '-' || c == '.'

/-- Characters that may appear in a parsed hostname: anything except the
authority/component delimiters. -/
def hostChar (c : Char) : Bool :=
  !(c == ':' || c == '/' || c == '?' || c == '#' || c == '@')

/-- Characters terminating the authority section. -/
def authChar (c : Char) : Bool :=
  !(c == '/' || c == '?' || c == '#')

/-- Characters that may appear in a parsed path (no query or fragment
delimiters). -/
def pathChar (c : Char) : Bool :=
  !(c == '?' || c == '#')

/-- A character is toLower-fixed when lowercasing leaves it unchanged;
parsed schemes and hosts consist of such characters. -/
def toLowerFixed (c : Char) : Bool :=
  c.toLower == c

/-- The special schemes whose URLs carry an authority and a real origin. -/
def specialSchemes : List Chars :=
  ["http", "https", "ws", "wss", "ftp"].map String.toList

/-- Default port literal for each special scheme (dropped when parsing). -/
def defaultPort (scheme : Chars) : Chars :=
  if scheme = "http".toList then "80".toList
  else if scheme = "https".toList then "443".toList
  else if scheme = "ws".toList then "80".toList
  else if scheme = "wss".toList then "443".toList
  else if scheme = "ftp".toList then "21".toList
  else []

/-- A parsed URL: the components the crawler reads off the WHATWG `URL`
object.  For non-special schemes the host is empty and `path` is the
opaque path. -/
structure UrlC where
  scheme : Chars
  host : Chars
  port : Option Chars
  path : Chars
  query : Option Chars
  fragment : Option Chars
deriving DecidableEq, Repr

/-- Well-formedness of a scheme component. -/
def schemeWF (s : Chars) : Bool :=
  !s.isEmpty && s.all schemeChar && s.all toLowerFixed &&
    (match s with
     | c :: _ => c.isAlpha
     | [] => false)

/-- Well-formedness of a parsed URL: the component invariants guaranteed
by the WHATWG parser for the modelled fragment. -/
def urlWF (u : UrlC) : Bool :=
  schemeWF u.scheme &&
  (match u.query with
   | none => true
   | some q => q.all (· != '#')) &&
  (if specialSchemes.contains u.scheme then
    !u.host.isEmpty && u.host.all hostChar && u.host.all toLowerFixed &&
    (match u.port with
     | none => true
     | some p => !p.isEmpty && p.all Char.isDigit && p ≠ defaultPort u.scheme) &&
    !u.path.isEmpty &&
    (match u.path with
     | c :: _ => c == '/'
     | [] => false) && u.path.all pathChar
  else u.host.isEmpty && u.port == none && u.path.all pathChar)

/-- Smart constructor: a parse succeeds only with well-formed components. -/
def mkUrl? (u : UrlC) : Option UrlC :=
  if urlWF u then some u else none

/-- Fragment of a string: everything after the first `#`, if any. -/
def fragOf (s : Chars) : Option Chars :=
  match s.dropWhile (· != '#') with
  | _ :: f => some f
  | [] => none

/-- Split `path?query#fragment` into its three components. -/
def splitPQF (s : Chars) : Chars × Option Chars × Option Chars :=
  let beforeHash := s.takeWhile (· != '#')
  let path := beforeHash.takeWhile (· != '?')
  let query :=
    match beforeHash.dropWhile (· != '?') with
    | _ :: q => some q
    | [] => none
  (path, query, fragOf s)

/-- Part of the authority after the last `@` (userinfo stripped). -/
def afterLastAt (l : Chars) : Chars :=
  (l.reverse.takeWhile (· != '@')).reverse

/-- Decomposition step of the URL parser: split the input into candidate
components without validating them. -/
def parseUrlRaw (s : Chars) : Option UrlC :=
  let scheme := s.takeWhile (· != ':')
  match s.dropWhile (· != ':') with
  | ':' :: r =>
    let schemeL := scheme.map Char.toLower
    if specialSchemes.contains schemeL then
      let r1 := r.dropWhile (· == '/')
      let auth := r1.takeWhile authChar
      let afterAuth := r1.dropWhile authChar
      let hp := afterLastAt auth
      let host := (hp.takeWhile (· != ':')).map Char.toLower
      match hp.dropWhile (· != ':') with
      | [] =>
        let pqf := splitPQF afterAuth
        some ⟨schemeL, host, none, if pqf.1.isEmpty then ['/'] else pqf.1,
          pqf.2.1, pqf.2.2⟩
      | _ :: ds =>
        if ds.all Char.isDigit then
          let port := if ds.isEmpty || ds == defaultPort schemeL then none else some ds
          let pqf := splitPQF afterAuth
          some ⟨schemeL, host, port, if pqf.1.isEmpty then ['/'] else pqf.1,
            pqf.2.1, pqf.2.2⟩
        else none
    else
      let pqf := splitPQF r
      some ⟨schemeL, [], none, pqf.1, pqf.2.1, pqf.2.2⟩
  | _ => none

/-- Model of the WHATWG URL parser (Node's `URL` class) on character
lists; see the module comment for the modelled fragment: decompose, then
validate the components.  Returns `none` where `new URL(s)` throws. -/
def parseUrlC (s : Chars) : Option UrlC :=
  (parseUrlRaw s).bind mkUrl?

/-- Serialization of the `origin` property: `scheme://host[:port]` for
special schemes, the literal string `"null"` otherwise (as in WHATWG). -/
def originC (u : UrlC) : Chars :=
  if specialSchemes.contains u.scheme then
    u.scheme ++ "://".toList ++ u.host ++
      (match u.port with
       | none => []
       | some p => ':' :: p)
  else "null".toList

/-- Serialization of the `search` property: empty for an absent or empty
query, otherwise `?query`. -/
def searchC (u : UrlC) : Chars :=
  match u.query with
  | none => []
  | some q => if q.isEmpty then [] else '?' :: q

/-- Serialization of the optional port: empty or `:port`. -/
def portSer (po : Option Chars) : Chars :=
  match po with
  | none => []
  | some p => ':' :: p

/-- Serialization of the `href` property. -/
def hrefC (u : UrlC) : Chars :=
  (if specialSchemes.contains u.scheme then
    u.scheme ++ "://".toList ++ u.host ++
      (match u.port with
       | none => []
       | some p => ':' :: p)
   else u.scheme ++ [':']) ++ u.path ++
  (match u.query with
   | none => []
   | some q => '?' :: q) ++
  (match u.fragment with
   | none => []
   | some f => '#' :: f)

/-- Serialization of the `protocol` property: `scheme:`. -/
def protocolC (u : UrlC) : Chars :=
  u.scheme ++ [':']

/-- Boolean prefix test on character lists. -/
def prefixOfB : Chars → Chars → Bool
  | [], _ => true
  | _ :: _, [] => false
  | a :: as, b :: bs => a == b && prefixOfB as bs

/-- JavaScript `String.prototype.includes`: `sub` occurs inside `s`. -/
def strIncl (s sub : Chars) : Bool :=
  prefixOfB sub s ||
    (match s with
     | [] => false
     | _ :: t => strIncl t sub)

/-- JavaScript `pathname.replace(/\/$/, '')`: drop one trailing slash. -/
def stripTrailingSlash (p : Chars) : Chars :=
  if p.getLast? == some '/' then p.dropLast else p

/-- Port component recovered when re-parsing a serialized authority. -/
def portOut (sc : Chars) (portPart : Chars) : Option Chars :=
  match portPart with
  | [] => none
  | _ :: p => if p.isEmpty || p == defaultPort sc then none else some p

/-- Query component recovered when re-parsing a serialized search part. -/
def queryOut (search : Chars) : Option Chars :=
  match search with
  | [] => none
  | _ :: q => some q

/-- The URL record obtained by re-parsing a canonical serialization. -/
def normTarget (u : UrlC) : UrlC :=
  ⟨u.scheme, u.host, portOut u.scheme (portSer u.port),
   if (stripTrailingSlash u.path).isEmpty then ['/'] else stripTrailingSlash u.path,
   queryOut (searchC u), none⟩

/-- URL canonicalizer (server.js lines 49-58): `origin + pathname with one
trailing slash removed + search`; an unparsable input is returned
unchanged. -/
def normalizeUrl (url : String) : String :=
  match parseUrlC url.toList with
  | some u => String.mk (originC u ++ stripTrailingSlash u.path ++ searchC u)
  | none => url

/-- Split a character list at a separator character, keeping empty parts. -/
def splitOnCharAux (sep : Char) : Chars → Chars → List Chars
  | [], acc => [acc.reverse]
  | c :: cs, acc =>
    if c == sep then acc.reverse :: splitOnCharAux sep cs []
    else splitOnCharAux sep cs (c :: acc)

/-- Split a character list at a separator character. -/
def splitOnChar (sep : Char) (s : Chars) : List Chars :=
  splitOnCharAux sep s []

/-- Hexadecimal digits, both cases. -/
def hexChars : Chars := "0123456789abcdefABCDEF".toList

/-- Regex `^[0-9a-f]{8}-[0-9a-f]{4}-[0-9a-f]{4}-[0-9a-f]{4}-[0-9a-f]{12}$/i`
(server.js line 126). -/
def isUuidSeg (seg : Chars) : Bool :=
  match splitOnChar '-' seg with
  | [a, b, c, d, e] =>
    a.length == 8 && b.length == 4 && c.length == 4 && d.length == 4 &&
    e.length == 12 && (a ++ b ++ c ++ d ++ e).all (hexChars.contains ·)
  | _ => false

/-- Regex `^\d+$` (server.js line 131). -/
def isAllDigits (seg : Chars) : Bool :=
  !seg.isEmpty && seg.all Char.isDigit

/-- Characters allowed after the first separator of a slug. -/
def slugTailChar (c : Char) : Bool :=
  c.isAlphanum || c == '-' || c == '_'

/-- Regex `^[a-z0-9]+[-_][a-z0-9-_]+$/i` (server.js line 136): an
alphanumeric run, a hyphen or underscore, then a nonempty tail of
alphanumerics, hyphens and underscores. -/
def isSlugSeg (seg : Chars) : Bool :=
  match seg.dropWhile Char.isAlphanum with
  | c :: tail =>
    !(seg.takeWhile Char.isAlphanum).isEmpty && (c == '-' || c == '_') &&
    !tail.isEmpty && tail.all slugTailChar
  | [] => false

/-- Regex `^[a-z-_]+\d+$/i` (server.js line 141): letters, hyphens and
underscores followed by trailing digits. -/
def isSlugIdSeg (seg : Chars) : Bool :=
  let ds := (seg.reverse.takeWhile Char.isDigit).reverse
  let pre := (seg.reverse.dropWhile Char.isDigit).reverse
  !ds.isEmpty && !pre.isEmpty &&
    pre.all (fun c => c.isAlpha || c == '-' || c == '_')

/-- Regex `%[0-9A-F]{2}/i` tested anywhere in the segment. -/
def containsPctHex : Chars → Bool
  | '%' :: a :: b :: rest =>
    (hexChars.contains a && hexChars.contains b) || containsPctHex (a :: b :: rest)
  | _ :: rest => containsPctHex rest
  | [] => false

/-- Dynamic segment: longer than 50 characters or percent-encoded
(server.js line 146). -/
def isDynamicSeg (seg : Chars) : Bool :=
  decide (50 < seg.length) || containsPctHex seg

/-- Regex `^\d{4}-\d{2}-\d{2}` (server.js line 151): a leading date. -/
def isDateSlugSeg (seg : Chars) : Bool :=
  match seg with
  | y1 :: y2 :: y3 :: y4 :: h1 :: m1 :: m2 :: h2 :: d1 :: d2 :: _ =>
    y1.isDigit && y2.isDigit && y3.isDigit && y4.isDigit && h1 == '-' &&
    m1.isDigit && m2.isDigit && h2 == '-' && d1.isDigit && d2.isDigit
  | _ => false

/-- Hash-like segment (server.js line 156): 6-12 alphanumerics that are
not purely alphabetic. -/
def isHashSeg (seg : Chars) : Bool :=
  seg.all Char.isAlphanum && decide (6 ≤ seg.length) &&
  decide (seg.length ≤ 12) && !(seg.all Char.isAlpha)

/-- Collection/listing path keywords (server.js lines 69-105). -/
def collectionPaths : List Chars :=
  (["product", "products", "item", "items",
    "category", "categories", "cat",
    "collection", "collections",
    "shop", "store", "catalog",
    "brand", "brands",
    "tag", "tags",
    "blog", "blogs", "post", "posts",
    "article", "articles", "news",
    "page", "pages",
    "portfolio", "project", "projects",
    "gallery", "galleries",
    "event", "events",
    "case-study", "case-studies",
    "author", "authors", "user", "users", "profile", "profiles",
    "team", "member", "members",
    "docs", "doc", "documentation", "guide", "guides",
    "tutorial", "tutorials", "lesson", "lessons",
    "topic", "topics", "thread", "threads",
    "forum", "forums", "discussion", "discussions",
    "video", "videos", "photo", "photos", "image", "images",
    "property", "properties", "listing", "listings",
    "apartment", "apartments", "house", "houses",
    "job", "jobs", "career", "careers", "vacancy", "vacancies",
    "service", "services",
    "location", "locations", "city", "cities", "region", "regions"]).map
    String.toList

/-- Rule cascade applied to a segment that is neither a collection keyword
nor an item (server.js lines 125-161), in source order. -/
def classifySegment (index : Nat) (seg : Chars) : Chars :=
  if isUuidSeg seg then "{uuid}".toList
  else if isAllDigits seg then "{id}".toList
  else if decide (0 < index) && isSlugSeg seg then "{slug}".toList
  else if decide (0 < index) && isSlugIdSeg seg then "{slug-id}".toList
  else if isDynamicSeg seg then "{dynamic}".toList
  else if isDateSlugSeg seg then "{date-slug}".toList
  else if decide (0 < index) && isHashSeg seg then "{hash}".toList
  else seg

/-- Segment walk of `getUrlPattern` (server.js lines 110-162), carrying
the `afterCollectionPath` flag and the running index. -/
def patternSegsGo : Bool → Nat → List Chars → List Chars
  | _, _, [] => []
  | flag, index, seg :: rest =>
    if collectionPaths.contains (seg.map Char.toLower) then
      seg :: patternSegsGo true (index + 1) rest
    else if flag then
      "{item}".toList :: patternSegsGo false (index + 1) rest
    else
      classifySegment index seg :: patternSegsGo flag (index + 1) rest

/-- Path segments: `pathname.split('/').filter(Boolean)`. -/
def pathSegments (p : Chars) : List Chars :=
  (splitOnChar '/' p).filter (fun s => !s.isEmpty)

/-- Smart URL pattern detection (server.js lines 63-168): rewrite the path
segments and rejoin as `origin + '/' + segments.join('/')`; an unparsable
input is returned unchanged. -/
def getUrlPattern (url : String) : String :=
  match parseUrlC url.toList with
  | some u =>
    String.mk (originC u ++ '/' ::
      List.intercalate ['/'] (patternSegsGo false 0 (pathSegments u.path)))
  | none => url

/-- Pattern membership test (server.js lines 171-174). -/
def isPatternVisited (url : String) (visitedPatterns : List String) : Bool :=
  visitedPatterns.contains (getUrlPattern url)

/-- JavaScript `Set.prototype.add` on an insertion-ordered duplicate-free
list. -/
def jsSetAdd (l : List String) (x : String) : List String :=
  if l.contains x then l else l ++ [x]

/-- Record a URL's pattern as visited and return the pattern
(server.js lines 177-181). -/
def markPatternVisited (url : String) (visitedPatterns : List String) :
    List String × String :=
  (jsSetAdd visitedPatterns (getUrlPattern url), getUrlPattern url)

/-- Relative URL resolution against a special-scheme base, to the
precision `isInternalUrl` needs (the resolved hostname); dot segments are
kept verbatim. -/
def resolveRel (b : UrlC) (s : Chars) : Option UrlC :=
  match s with
  | [] => mkUrl? { b with fragment := none }
  | '/' :: '/' :: rest => parseUrlC (b.scheme ++ ':' :: '/' :: '/' :: rest)
  | '/' :: rest =>
    let (pRaw, query, fragment) := splitPQF ('/' :: rest)
    mkUrl? { b with path := pRaw, query := query, fragment := fragment }
  | '?' :: rest =>
    mkUrl? { b with query := some (rest.takeWhile (· != '#')), fragment := fragOf rest }
  | '#' :: rest => mkUrl? { b with fragment := some rest }
  | s =>
    let (pRaw, query, fragment) := splitPQF s
    let dir := (b.path.reverse.dropWhile (· != '/')).reverse
    mkUrl? { b with path := dir ++ pRaw, query := query, fragment := fragment }

/-- Syntactic validity of a raw (not yet lowercased) scheme component: a
leading ASCII letter followed by scheme characters. -/
def validSchemeSyntax (sc : Chars) : Bool :=
  (match sc with
   | c :: _ => c.isAlpha
   | [] => false) && sc.all schemeChar

/-- WHATWG scheme-state test: `s` begins with a syntactically valid scheme
followed by `:`, and that scheme, lowercased, is the special scheme `sc`.
Such an input is resolved relative to the base rather than parsed as an
absolute URL. -/
def sameSchemeRef (sc : Chars) (s : Chars) : Bool :=
  validSchemeSyntax (s.takeWhile (· != ':')) &&
  !(s.dropWhile (· != ':')).isEmpty &&
  ((s.takeWhile (· != ':')).map Char.toLower == sc) &&
  specialSchemes.contains sc

/-- Everything after the first `:` of `s` (the whole of `s` if there is
none; only used under `sameSchemeRef`, which guarantees a `:`). -/
def schemeRemainder (s : Chars) : Chars :=
  match s.dropWhile (· != ':') with
  | _ :: r => r
  | [] => []

/-- Resolution of an input against an already parsed base (WHATWG scheme
state): an input carrying the base's own special scheme resolves relative
to the base unless its remainder starts with `//` (authority form); any
other input is parsed as an absolute URL, and failing that resolved
relative to a special base. -/
def resolveWithBase (b : UrlC) (s : Chars) : Option UrlC :=
  if sameSchemeRef b.scheme s then
    match schemeRemainder s with
    | '/' :: '/' :: _ => parseUrlC s
    | rem => resolveRel b rem
  else
    match parseUrlC s with
    | some u => some u
    | none => if specialSchemes.contains b.scheme then resolveRel b s else none

/-- Model of `new URL(s, base)`: the base must parse (`new URL` throws on
an unparsable base), then `s` is resolved against it.  In particular a
special-scheme input carrying the base's scheme, such as `http:foo`
against `http://x.com`, resolves relative to the base
(`http://x.com/foo`), exactly as the WHATWG parser prescribes. -/
def parseUrlWithBaseC (base s : Chars) : Option UrlC :=
  (parseUrlC base).bind (fun b => resolveWithBase b s)

/-- Same-host test (server.js lines 184-192): both URLs parse (the test
URL relative to the base) and the hostnames coincide. -/
def isInternalUrl (baseUrl testUrl : String) : Bool :=
  match parseUrlC baseUrl.toList, parseUrlWithBaseC baseUrl.toList testUrl.toList with
  | some b, some t => b.host == t.host
  | _, _ => false

/-- Second filter of `extractLinks` (server.js lines 204-215): the link
parses absolutely, its serialization carries no `#`, and its protocol is
none of `javascript`, `mailto`, `tel`. -/
def linkFilterOk (link : String) : Bool :=
  match parseUrlC link.toList with
  | some u =>
    !strIncl (hrefC u) "#".toList &&
    !strIncl (protocolC u) "javascript".toList &&
    !strIncl (protocolC u) "mailto".toList &&
    !strIncl (protocolC u) "tel".toList
  | none => false

/-- JavaScript `[...new Set(xs)]`: keep the first occurrence of each
element, in order. -/
def jsSetDedupGo (seen : List String) : List String → List String
  | [] => []
  | x :: xs =>
    if seen.contains x then jsSetDedupGo seen xs
    else x :: jsSetDedupGo (seen ++ [x]) xs

/-- Deduplicate preserving first occurrences. -/
def jsSetDedup (l : List String) : List String :=
  jsSetDedupGo [] l

/-- Pure part of `extractLinks` (server.js lines 195-219): the raw anchor
hrefs collected in the page are filtered to internal links, cleaned of
fragment/javascript/mailto/tel links, normalized and deduplicated. -/
def extractLinks (links : List String) (baseUrl : String) : List String :=
  jsSetDedup
    (((links.filter (fun link => isInternalUrl baseUrl link)).filter
      linkFilterOk).map normalizeUrl)

/-- One Result record (server.js lines 351-358 and 367-373).  The
`timestamp` field is real time and is not modelled. -/
structure PageResult where
  id : Nat
  url : String
  title : String
  screenshot : Option String
  linksFound : Option Nat
  error : Option String
deriving DecidableEq, Repr

/-- One skip record (server.js line 335). -/
structure SkipRecord where
  url : String
  pattern : String
  reason : String
deriving DecidableEq, Repr

/-- Mutable state of one crawl (server.js lines 269-273): the pending
queue, the visited set, the visited-pattern set, the skip log and the
result log.  The JavaScript `Set`s are insertion-ordered duplicate-free
lists. -/
structure CrawlState where
  queue : List String
  visited : List String
  visitedPatterns : List String
  skippedUrls : List SkipRecord
  results : List PageResult
deriving DecidableEq, Repr

/-- Events the crawler emits to its socket.  Informational `status`
messages carry no state and are not modelled; `session-started` is
emitted by the connection handler before the crawl starts. -/
inductive CrawlEvent where
  | progress (current total : Nat) (url : String)
  | screenshot (r : PageResult)
  | complete (sessionId : String) (totalPages : Nat) (results : List PageResult)
deriving DecidableEq, Repr

/-- Link admission loop (server.js lines 330-341): each link not yet
visited and not yet queued is enqueued, unless smart dedup is on and its
pattern was already seen, in which case a skip record is appended. -/
def admitLinks (smartDedup : Bool) (visited patterns : List String) :
    List String → List String → List SkipRecord → List String × List SkipRecord
  | [], queue, skipped => (queue, skipped)
  | link :: ls, queue, skipped =>
    if !visited.contains link && !queue.contains link then
      if smartDedup && isPatternVisited link patterns then
        admitLinks smartDedup visited patterns ls queue
          (skipped ++ [⟨link, getUrlPattern link, "duplicate_pattern"⟩])
      else
        admitLinks smartDedup visited patterns ls (queue ++ [link]) skipped
    else
      admitLinks smartDedup visited patterns ls queue skipped

/-- Result record for a failed page (server.js lines 367-373). -/
def errorResult (pageNumber : Nat) (url msg : String) : PageResult :=
  ⟨pageNumber, url, "Error", none, none, some msg⟩

/-- State after a failed iteration: the page is moved into `visited`, a
failure result is appended, patterns and queue gain nothing. -/
def errorState (st : CrawlState) (currentUrl : String) (rest : List String)
    (msg : String) : CrawlState :=
  let visited' := st.visited ++ [currentUrl]
  ⟨rest, visited', st.visitedPatterns, st.skippedUrls,
   st.results ++ [errorResult visited'.length currentUrl msg]⟩

/-- Result record for a successful page (server.js lines 351-358). -/
def successResult (sessionId : String) (pageNumber : Nat) (url title : String)
    (linksFound : Nat) : PageResult :=
  ⟨pageNumber, url,
   if title = "" then "Untitled" else title,
   some ("/screenshots/" ++ sessionId ++ "/page_" ++ Nat.repr pageNumber ++ ".png"),
   some linksFound, none⟩

/-- State after a successful iteration (server.js lines 307-363): the page
joins `visited`, its pattern is recorded when smart dedup is on, the
extracted links are admitted, and a success result is appended. -/
def successState (sessionId startUrl : String) (smartDedup : Bool)
    (st : CrawlState) (currentUrl : String) (rest : List String)
    (title : String) (rawLinks : List String) : CrawlState :=
  let visited' := st.visited ++ [currentUrl]
  let links := extractLinks rawLinks startUrl
  let patterns' :=
    if smartDedup then (markPatternVisited currentUrl st.visitedPatterns).1
    else st.visitedPatterns
  let qs := admitLinks smartDedup visited' patterns' links rest st.skippedUrls
  ⟨qs.1, visited', patterns', qs.2,
   st.results ++ [successResult sessionId visited'.length currentUrl title links.length]⟩

/-- Progress event of an iteration (server.js lines 300-305), emitted
after the dequeue: `current` is the new visited count and `total` the
capped frontier estimate. -/
def progressEvent (maxPages : Nat) (st : CrawlState) (currentUrl : String)
    (rest : List String) : CrawlEvent :=
  .progress (st.visited.length + 1)
    (min (rest.length + (st.visited.length + 1)) maxPages) currentUrl

/-- Termination predicate of the orchestrator loop: the negation of the
`while` condition of server.js line 293, evaluated at iteration `n`. -/
def exitCond (maxPages : Nat) (cancelled : Nat → Bool) (st : CrawlState)
    (n : Nat) : Bool :=
  st.queue.isEmpty || decide (maxPages ≤ st.visited.length) || cancelled n

/-- Output of the crawl loop: the final state, the iteration index at
which the `while` condition failed, the emitted events, and the trace of
(iteration index, state) pairs observed at the top of the loop (the last
entry is the failing check). -/
structure LoopOut where
  final : CrawlState
  finalN : Nat
  events : List CrawlEvent
  trace : List (Nat × CrawlState)
deriving Repr

/-- The orchestrator loop (server.js lines 293-375).  `site` is the
navigation collaborator: for a URL it yields either a navigation error or
the page title together with the raw anchor hrefs; per-page failures are
modelled at the navigation step.  `cancelled n` is the value of the
session's cancellation flag as observed at the top of iteration `n`. -/
def crawlLoop (site : String → Except String (String × List String))
    (sessionId startUrl : String) (maxPages : Nat) (smartDedup : Bool)
    (cancelled : Nat → Bool) (st : CrawlState) (n : Nat) : LoopOut :=
  match hq : st.queue with
  | [] => ⟨st, n, [], [(n, st)]⟩
  | currentUrl :: rest =>
    if hc : st.visited.length < maxPages ∧ cancelled n = false then
      if hv : st.visited.contains currentUrl then
        let out := crawlLoop site sessionId startUrl maxPages smartDedup cancelled
          { st with queue := rest } (n + 1)
        ⟨out.final, out.finalN, out.events, (n, st) :: out.trace⟩
      else
        match site currentUrl with
        | .error msg =>
          let out := crawlLoop site sessionId startUrl maxPages smartDedup cancelled
            (errorState st currentUrl rest msg) (n + 1)
          ⟨out.final, out.finalN,
           progressEvent maxPages st currentUrl rest :: out.events,
           (n, st) :: out.trace⟩
        | .ok (title, rawLinks) =>
          let st' := successState sessionId startUrl smartDedup st currentUrl rest
            title rawLinks
          let out := crawlLoop site sessionId startUrl maxPages smartDedup cancelled
            st' (n + 1)
          ⟨out.final, out.finalN,
           progressEvent maxPages st currentUrl rest ::
             .screenshot (successResult sessionId (st.visited.length + 1) currentUrl
               title (extractLinks rawLinks startUrl).length) :: out.events,
           (n, st) :: out.trace⟩
    else ⟨st, n, [], [(n, st)]⟩
termination_by (maxPages - st.visited.length, st.queue.length)
decreasing_by
  · apply Prod.Lex.right
    simp [hq]
  · apply Prod.Lex.left
    simp only [errorState]
    simp
    omega
  · apply Prod.Lex.left
    simp only [successState]
    simp
    omega

/-- Initial frontier of a crawl (server.js line 272). -/
def initState (startUrl : String) : CrawlState :=
  ⟨[normalizeUrl startUrl], [], [], [], []⟩

/-- The crawl session driver (server.js lines 256-406): an unknown
session returns silently (line 258); otherwise, whether the loop runs or
browser setup fails (`launchOk = false`), the `finally` block emits
exactly one terminal `complete` event carrying the result log and removes
the session from the registry of live sessions. -/
def crawlWebsite (site : String → Except String (String × List String))
    (sessionId startUrl : String) (maxPages : Nat) (smartDedup : Bool)
    (cancelled : Nat → Bool) (launchOk : Bool) (registry : List String) :
    List String × List CrawlEvent :=
  if registry.contains sessionId then
    if launchOk then
      let out := crawlLoop site sessionId startUrl maxPages smartDedup cancelled
        (initState startUrl) 0
      (registry.erase sessionId,
       out.events ++ [.complete sessionId out.final.results.length out.final.results])
    else
      (registry.erase sessionId, [.complete sessionId 0 []])
  else (registry, [])

/-- Reference rule cascade as the spec words it (§4.2 step 3): the rules
in priority order, each a guard on (segment index, segment) with its
replacement token. -/
def specRuleList : List ((Nat → Chars → Bool) × Chars) :=
  [(fun _ seg => isUuidSeg seg, "{uuid}".toList),
   (fun _ seg => isAllDigits seg, "{id}".toList),
   (fun index seg => decide (0 < index) && isSlugSeg seg, "{slug}".toList),
   (fun index seg => decide (0 < index) && isSlugIdSeg seg, "{slug-id}".toList),
   (fun _ seg => isDynamicSeg seg, "{dynamic}".toList),
   (fun _ seg => isDateSlugSeg seg, "{date-slug}".toList),
   (fun index seg => decide (0 < index) && isHashSeg seg, "{hash}".toList)]

/-- Reference classification of one ordinary segment: the first matching
rule applies, otherwise the segment is kept literal. -/
def classifySpecSegment (index : Nat) (seg : Chars) : Chars :=
  match specRuleList.find? (fun r => r.1 index seg) with
  | some r => r.2
  | none => seg

/-- Reference segment walk as the spec words it (§4.2 steps 1-3): a fold
carrying the emitted segments, the lookahead flag and the index. -/
def classifySpecStep (acc : List Chars × Bool × Nat) (seg : Chars) :
    List Chars × Bool × Nat :=
  let (outs, flag, index) := acc
  if collectionPaths.contains (seg.map Char.toLower) then
    (outs ++ [seg], true, index + 1)
  else if flag then
    (outs ++ ["{item}".toList], false, index + 1)
  else
    (outs ++ [classifySpecSegment index seg], flag, index + 1)

/-- Reference segment walk over a whole path. -/
def classifySpecWalk (segs : List Chars) : List Chars :=
  (segs.foldl classifySpecStep ([], false, 0)).1

/-- Reference pattern classifier assembled exactly as the spec describes
(§4.2): split the path, walk the segments, rejoin as
`origin + '/' + segments.join('/')`; parse failure returns the input. -/
def classifySpec (url : String) : String :=
  match parseUrlC url.toList with
  | some u =>
    String.mk (originC u ++ '/' ::
      List.intercalate ['/'] (classifySpecWalk (pathSegments u.path)))
  | none => url

/-- Same-origin comparison of two URL strings, as the spec's words
"same-origin with the base URL" read: both parse and their origins
coincide. -/
def sameOriginB (a b : String) : Bool :=
  match parseUrlC a.toList, parseUrlC b.toList with
  | some u, some v => originC u == originC v
  | _, _ => false

/-- Recognizer for progress events. -/
def isProgressEvent : CrawlEvent → Bool
  | .progress _ _ _ => true
  | _ => false

/-- Recognizer for terminal complete events. -/
def isCompleteEvent : CrawlEvent → Bool
  | .complete _ _ _ => true
  | _ => false

/-- Frontier invariant of the crawl loop: the queue holds each URL at most
once and never a visited one, the visited list is duplicate-free and in
bijection with the result log, result sequence numbers are the 1-based
positions in the log, every result belongs to a visited URL and failed
navigations are recorded verbatim, and the visited count never exceeds the
page budget. -/
def CrawlInv (site : String → Except String (String × List String))
    (maxPages : Nat) (st : CrawlState) : Prop :=
  st.queue.Nodup ∧
  (∀ u ∈ st.queue, u ∉ st.visited) ∧
  st.visited.Nodup ∧
  st.visited.length = st.results.length ∧
  (∀ (i : Nat) (h : i < st.results.length), (st.results.get ⟨i, h⟩).id = i + 1) ∧
  (∀ r ∈ st.results, r.url ∈ st.visited ∧
    ∀ msg, site r.url = .error msg → r.error = some msg ∧ r.title = "Error") ∧
  st.visited.length ≤ maxPages

-- quick sanity examples for the URL layer
example : normalizeUrl "https://x.com/a/" = "https://x.com/a" := by decide
example : normalizeUrl "https://x.com/a#frag" = "https://x.com/a" := by decide
example : normalizeUrl "https://x.com/a?q=1" = "https://x.com/a?q=1" := by decide
example : normalizeUrl "not a url" = "not a url" := by decide
example : getUrlPattern "https://x.com/product/1234" = "https://x.com/product/{item}" := by
  decide
example : getUrlPattern "https://x.com/about" = "https://x.com/about" := by decide

/-! ## Helper lemmas for the URL layer -/

theorem normalizeUrl_parsed (s : String) (u : UrlC)
    (h : parseUrlC s.toList = some u) :
    normalizeUrl s = String.mk (originC u ++ stripTrailingSlash u.path ++ searchC u) := by
  unfold normalizeUrl
  rw [h]

theorem getUrlPattern_parsed (s : String) (u : UrlC)
    (h : parseUrlC s.toList = some u) :
    getUrlPattern s = String.mk (originC u ++ '/' ::
      List.intercalate ['/'] (patternSegsGo false 0 (pathSegments u.path))) := by
  unfold getUrlPattern
  rw [h]

theorem stripTrailingSlash_concat (p : Chars) :
    stripTrailingSlash (p ++ ['/']) = p := by
  simp [stripTrailingSlash]

theorem stripTrailingSlash_of_not_slash (p : Chars) (h : p.getLast? ≠ some '/') :
    stripTrailingSlash p = p := by
  simp only [stripTrailingSlash, beq_iff_eq]
  simp [h]

theorem originC_congr (u v : UrlC) (hs : u.scheme = v.scheme)
    (hh : u.host = v.host) (hp : u.port = v.port) : originC u = originC v := by
  simp [originC, hs, hh, hp]

/-! ## C3: canonicalizer identities -/

/-- C3.  For URLs differing only by one trailing slash on the path (the
shorter path not itself ending in a slash — the claim as literally stated
fails there, see the counterexample) or only by their fragment,
`normalizeUrl` returns identical strings; for URLs identical except for
their query string (distinct `search` values) it returns different
strings; an unparsable input is returned unchanged. -/
theorem spec_C3 :
    (∀ (s1 s2 : String) (u1 u2 : UrlC),
      parseUrlC s1.toList = some u1 → parseUrlC s2.toList = some u2 →
      u1.scheme = u2.scheme → u1.host = u2.host → u1.port = u2.port →
      u1.query = u2.query → u1.fragment = u2.fragment →
      u1.path = u2.path ++ ['/'] → u2.path.getLast? ≠ some '/' →
      normalizeUrl s1 = normalizeUrl s2) ∧
    (∀ (s1 s2 : String) (u1 u2 : UrlC),
      parseUrlC s1.toList = some u1 → parseUrlC s2.toList = some u2 →
      u1.scheme = u2.scheme → u1.host = u2.host → u1.port = u2.port →
      u1.path = u2.path → u1.query = u2.query →
      normalizeUrl s1 = normalizeUrl s2) ∧
    (∀ (s1 s2 : String) (u1 u2 : UrlC),
      parseUrlC s1.toList = some u1 → parseUrlC s2.toList = some u2 →
      u1.scheme = u2.scheme → u1.host = u2.host → u1.port = u2.port →
      u1.path = u2.path → searchC u1 ≠ searchC u2 →
      normalizeUrl s1 ≠ normalizeUrl s2) ∧
    (∀ s : String, parseUrlC s.toList = none → normalizeUrl s = s) := by
  refine ⟨?_, ?_, ?_, ?_⟩
  · intro s1 s2 u1 u2 h1 h2 hs hh hp hq hf hpath hlast
    rw [normalizeUrl_parsed _ _ h1, normalizeUrl_parsed _ _ h2,
      originC_congr u1 u2 hs hh hp, hpath, stripTrailingSlash_concat,
      stripTrailingSlash_of_not_slash _ hlast]
    simp [searchC, hq]
  · intro s1 s2 u1 u2 h1 h2 hs hh hp hpath hq
    rw [normalizeUrl_parsed _ _ h1, normalizeUrl_parsed _ _ h2,
      originC_congr u1 u2 hs hh hp, hpath]
    simp [searchC, hq]
  · intro s1 s2 u1 u2 h1 h2 hs hh hp hpath hq hcontra
    rw [normalizeUrl_parsed _ _ h1, normalizeUrl_parsed _ _ h2,
      originC_congr u1 u2 hs hh hp, hpath] at hcontra
    apply hq
    have := hcontra
    injection this with hlist
    exact List.append_cancel_left hlist
  · intro s h
    unfold normalizeUrl
    rw [h]

/-- C3 counterexample: `http://x.com/a//` and `http://x.com/a/` differ
only by a trailing slash on the path, yet `normalizeUrl` (which strips at
most one trailing slash) maps them to different strings. -/
theorem spec_C3_cex :
    parseUrlC "http://x.com/a//".toList =
      some ⟨"http".toList, "x.com".toList, none, "/a//".toList, none, none⟩ ∧
    parseUrlC "http://x.com/a/".toList =
      some ⟨"http".toList, "x.com".toList, none, "/a/".toList, none, none⟩ ∧
    ("/a//".toList : Chars) = "/a/".toList ++ ['/'] ∧
    normalizeUrl "http://x.com/a//" ≠ normalizeUrl "http://x.com/a/" := by
  decide

/-- C3 witness: the amended statement applied at concrete URLs. -/
theorem spec_C3_witness :
    normalizeUrl "http://x.com/a/" = normalizeUrl "http://x.com/a" ∧
    normalizeUrl "http://x.com/a#f" = normalizeUrl "http://x.com/a" ∧
    normalizeUrl "http://x.com/a?p=1" ≠ normalizeUrl "http://x.com/a?p=2" ∧
    normalizeUrl "%%%" = "%%%" :=
  ⟨spec_C3.1 _ _ ⟨"http".toList, "x.com".toList, none, "/a/".toList, none, none⟩
      ⟨"http".toList, "x.com".toList, none, "/a".toList, none, none⟩
      (by decide) (by decide) rfl rfl rfl rfl rfl (by decide) (by decide),
   spec_C3.2.1 _ _ ⟨"http".toList, "x.com".toList, none, "/a".toList, none, some "f".toList⟩
      ⟨"http".toList, "x.com".toList, none, "/a".toList, none, none⟩
      (by decide) (by decide) rfl rfl rfl rfl rfl,
   spec_C3.2.2.1 _ _ ⟨"http".toList, "x.com".toList, none, "/a".toList, some "p=1".toList, none⟩
      ⟨"http".toList, "x.com".toList, none, "/a".toList, some "p=2".toList, none⟩
      (by decide) (by decide) rfl rfl rfl rfl (by decide),
   spec_C3.2.2.2 _ (by decide)⟩

/-! ## C10: the classifier ignores query and fragment -/

/-- C10.  `getUrlPattern` reads only the origin and the path, so two
parsable URLs identical up to query string and fragment classify to the
same pattern; consequently, with pattern dedup on, a link can be rejected
against a previously visited page that differed from it only in its query
string even though `normalizeUrl` keeps query strings significant. -/
theorem spec_C10 :
    (∀ (s1 s2 : String) (u1 u2 : UrlC),
      parseUrlC s1.toList = some u1 → parseUrlC s2.toList = some u2 →
      u1.scheme = u2.scheme → u1.host = u2.host → u1.port = u2.port →
      u1.path = u2.path → getUrlPattern s1 = getUrlPattern s2) ∧
    normalizeUrl "https://x.com/a?p=1" ≠ normalizeUrl "https://x.com/a?p=2" ∧
    getUrlPattern "https://x.com/a?p=1" = getUrlPattern "https://x.com/a?p=2" ∧
    isPatternVisited "https://x.com/a?p=2" [getUrlPattern "https://x.com/a?p=1"] = true := by
  refine ⟨?_, by decide, by decide, by decide⟩
  intro s1 s2 u1 u2 h1 h2 hs hh hp hpath
  rw [getUrlPattern_parsed _ _ h1, getUrlPattern_parsed _ _ h2,
    originC_congr u1 u2 hs hh hp, hpath]

/-- C10 witness: the universal part applied to two URLs differing in both
query string and fragment. -/
theorem spec_C10_witness :
    getUrlPattern "https://x.com/a?p=1" = getUrlPattern "https://x.com/a#zz" :=
  spec_C10.1 _ _ ⟨"https".toList, "x.com".toList, none, "/a".toList, some "p=1".toList, none⟩
    ⟨"https".toList, "x.com".toList, none, "/a".toList, none, some "zz".toList⟩
    (by decide) (by decide) rfl rfl rfl rfl

/-! ## C4: the classifier agrees with the spec's reference algorithm -/

theorem classifySegment_eq_spec (index : Nat) (seg : Chars) :
    classifySegment index seg = classifySpecSegment index seg := by
  unfold classifySegment classifySpecSegment specRuleList
  cases h1 : isUuidSeg seg <;>
    cases h2 : isAllDigits seg <;>
      cases h3 : (decide (0 < index) && isSlugSeg seg) <;>
        cases h4 : (decide (0 < index) && isSlugIdSeg seg) <;>
          cases h5 : isDynamicSeg seg <;>
            cases h6 : isDateSlugSeg seg <;>
              cases h7 : (decide (0 < index) && isHashSeg seg) <;>
                simp [List.find?, h1, h2, h3, h4, h5, h6, h7]

theorem foldl_spec_step (segs : List Chars) : ∀ (outs : List Chars)
    (flag : Bool) (index : Nat),
    (segs.foldl classifySpecStep (outs, flag, index)).1 =
      outs ++ patternSegsGo flag index segs := by
  induction segs with
  | nil => intro outs flag index; simp [patternSegsGo]
  | cons seg rest ih =>
    intro outs flag index
    simp only [List.foldl_cons, classifySpecStep]
    by_cases hcol : (seg.map Char.toLower) ∈ collectionPaths
    · simp [hcol, ih, patternSegsGo]
    · cases flag with
      | true => simp [hcol, ih, patternSegsGo]
      | false => simp [hcol, ih, patternSegsGo, classifySegment_eq_spec]

/-- C4.  `getUrlPattern` coincides with the reference algorithm of the
spec on every input (including unparsable ones, both returning the input
unchanged); in particular the two product URLs classify identically and a
keyword-free static path is kept literal. -/
theorem spec_C4 :
    (∀ url : String, getUrlPattern url = classifySpec url) ∧
    getUrlPattern "https://x.com/product/1234" =
      getUrlPattern "https://x.com/product/5678" ∧
    getUrlPattern "https://x.com/about" = "https://x.com/about" := by
  refine ⟨fun url => ?_, by decide, by decide⟩
  unfold getUrlPattern classifySpec
  cases h : parseUrlC url.toList
  · rfl
  · simp [classifySpecWalk, foldl_spec_step]

/-! ## C1: the pattern-dedup scenario -/

/-- C1.  With smart dedup on, after processing one product page
(`/product/3`: it is in `visited` and its pattern `/product/{item}` has
been recorded by `markPatternVisited`), the extracted links
`[/product/1, /product/2, /about]` — none visited or queued — are
admitted as follows: the second product link is rejected for matching the
same pattern as the first and is recorded as a skip instead of being
enqueued, while `/about` is accepted and enqueued. -/
theorem spec_C1 :
    extractLinks
        ["https://x.com/product/1", "https://x.com/product/2", "https://x.com/about"]
        "https://x.com" =
      ["https://x.com/product/1", "https://x.com/product/2", "https://x.com/about"] ∧
    (markPatternVisited "https://x.com/product/3" []).1 =
      ["https://x.com/product/{item}"] ∧
    getUrlPattern "https://x.com/product/2" = getUrlPattern "https://x.com/product/1" ∧
    admitLinks true ["https://x.com/product/3"] ["https://x.com/product/{item}"]
        ["https://x.com/product/1", "https://x.com/product/2", "https://x.com/about"]
        [] [] =
      (["https://x.com/about"],
       [⟨"https://x.com/product/1", "https://x.com/product/{item}", "duplicate_pattern"⟩,
        ⟨"https://x.com/product/2", "https://x.com/product/{item}", "duplicate_pattern"⟩]) := by
  decide

/-! ## Helper lemmas for the parser roundtrip -/

theorem takeWhile_all {α : Type} (p : α → Bool) (l : List α)
    (h : ∀ a ∈ l, p a = true) : l.takeWhile p = l := by
  induction l with
  | nil => rfl
  | cons a t ih =>
    simp only [List.takeWhile_cons, h a (by simp)]
    simp [ih fun a ha => h a (by simp [ha])]

theorem dropWhile_all {α : Type} (p : α → Bool) (l : List α)
    (h : ∀ a ∈ l, p a = true) : l.dropWhile p = [] := by
  induction l with
  | nil => rfl
  | cons a t ih =>
    simp only [List.dropWhile_cons, h a (by simp)]
    simp [ih fun a ha => h a (by simp [ha])]

theorem takeWhile_append_all {α : Type} (p : α → Bool) (l₁ T : List α)
    (h1 : ∀ a ∈ l₁, p a = true)
    (h2 : T.head?.all (fun c => !p c) = true) :
    (l₁ ++ T).takeWhile p = l₁ ∧ (l₁ ++ T).dropWhile p = T := by
  induction l₁ with
  | nil =>
    simp only [List.nil_append]
    cases T with
    | nil => simp
    | cons c t =>
      simp only [Option.all, List.head?] at h2
      simp only [List.takeWhile_cons, List.dropWhile_cons]
      simp only [Bool.not_eq_true'] at h2
      simp [h2]
  | cons a t ih =>
    have ha : p a = true := h1 a (by simp)
    have := ih fun a ha => h1 a (by simp [ha])
    simp [List.takeWhile_cons, List.dropWhile_cons, ha, this.1, this.2]

theorem afterLastAt_of_no_at (l : Chars) (h : ∀ a ∈ l, (a != '@') = true) :
    afterLastAt l = l := by
  unfold afterLastAt
  rw [takeWhile_all _ _ (fun a ha => h a (by simp at ha; simp [ha]))]
  simp

theorem map_toLower_of_fixed (l : Chars) (h : l.all toLowerFixed = true) :
    l.map Char.toLower = l := by
  induction l with
  | nil => rfl
  | cons a t ih =>
    simp only [List.all_cons, Bool.and_eq_true] at h
    have ha : a.toLower = a := by
      have := h.1
      simpa [toLowerFixed] using this
    simp [ha, ih h.2]

theorem schemeChar_ne_colon {c : Char} (h : schemeChar c = true) : (c != ':') = true := by
  by_cases hc : c = ':'
  · subst hc; exact absurd h (by decide)
  · simp [hc]

theorem hostChar_ne_colon {c : Char} (h : hostChar c = true) : (c != ':') = true := by
  by_cases hc : c = ':'
  · subst hc; exact absurd h (by decide)
  · simp [hc]

theorem hostChar_ne_at {c : Char} (h : hostChar c = true) : (c != '@') = true := by
  by_cases hc : c = '@'
  · subst hc; exact absurd h (by decide)
  · simp [hc]

theorem hostChar_ne_slash {c : Char} (h : hostChar c = true) : (c == '/') = false := by
  by_cases hc : c = '/'
  · subst hc; exact absurd h (by decide)
  · simp [hc]

theorem authChar_of_hostChar {c : Char} (h : hostChar c = true) : authChar c = true := by
  by_cases h1 : c = '/'
  · subst h1; exact absurd h (by decide)
  · by_cases h2 : c = '?'
    · subst h2; exact absurd h (by decide)
    · by_cases h3 : c = '#'
      · subst h3; exact absurd h (by decide)
      · simp [authChar, h1, h2, h3]

theorem authChar_of_digit {c : Char} (h : c.isDigit = true) : authChar c = true := by
  by_cases h1 : c = '/'
  · subst h1; exact absurd h (by decide)
  · by_cases h2 : c = '?'
    · subst h2; exact absurd h (by decide)
    · by_cases h3 : c = '#'
      · subst h3; exact absurd h (by decide)
      · simp [authChar, h1, h2, h3]

theorem digit_ne_colon {c : Char} (h : c.isDigit = true) : (c != ':') = true := by
  by_cases hc : c = ':'
  · subst hc; exact absurd h (by decide)
  · simp [hc]

theorem digit_ne_at {c : Char} (h : c.isDigit = true) : (c != '@') = true := by
  by_cases hc : c = '@'
  · subst hc; exact absurd h (by decide)
  · simp [hc]

theorem pathChar_ne_hash {c : Char} (h : pathChar c = true) : (c != '#') = true := by
  by_cases hc : c = '#'
  · subst hc; exact absurd h (by decide)
  · simp [hc]

theorem pathChar_ne_qmark {c : Char} (h : pathChar c = true) : (c != '?') = true := by
  by_cases hc : c = '?'
  · subst hc; exact absurd h (by decide)
  · simp [hc]

theorem mkUrl?_of_wf {v : UrlC} (hv : urlWF v = true) : mkUrl? v = some v := by
  simp [mkUrl?, hv]

theorem mkUrl?_some {v u : UrlC} (h : mkUrl? v = some u) :
    urlWF u = true ∧ v = u := by
  unfold mkUrl? at h
  split at h
  · cases h
    constructor
    · assumption
    · rfl
  · cases h

theorem parseUrlC_wf {s : Chars} {u : UrlC} (h : parseUrlC s = some u) :
    urlWF u = true := by
  unfold parseUrlC at h
  cases hr : parseUrlRaw s with
  | none => rw [hr] at h; cases h
  | some v =>
    rw [hr] at h
    exact (mkUrl?_some h).1

theorem parseUrlC_eq_some_iff {s : Chars} {u : UrlC} :
    parseUrlC s = some u ↔ parseUrlRaw s = some u ∧ urlWF u = true := by
  constructor
  · intro h
    unfold parseUrlC at h
    cases hr : parseUrlRaw s with
    | none => rw [hr] at h; cases h
    | some v =>
      rw [hr] at h
      obtain ⟨hwf, hv⟩ := mkUrl?_some h
      exact ⟨by rw [hv], hwf⟩
  · intro ⟨hr, hwf⟩
    unfold parseUrlC
    rw [hr]
    simp [mkUrl?, hwf]

theorem parseUrlRaw_scheme {s : Chars} {u : UrlC} (h : parseUrlRaw s = some u) :
    u.scheme = (s.takeWhile (· != ':')).map Char.toLower := by
  unfold parseUrlRaw at h
  split at h
  · dsimp only at h
    split at h
    · split at h
      · cases h
        rfl
      · split at h
        · cases h
          rfl
        · cases h
    · cases h
      rfl
  · cases h

theorem parseUrlC_scheme {s : Chars} {u : UrlC} (h : parseUrlC s = some u) :
    u.scheme = (s.takeWhile (· != ':')).map Char.toLower :=
  parseUrlRaw_scheme (parseUrlC_eq_some_iff.mp h).1

theorem parseUrlRaw_serialized
    (sc ho portPart strip search : Chars)
    (hsp : specialSchemes.contains sc = true)
    (hsc_colon : ∀ a ∈ sc, (a != ':') = true)
    (hsc_lower : sc.all toLowerFixed = true)
    (hho_ne : ho ≠ [])
    (hho : ∀ a ∈ ho, hostChar a = true)
    (hho_lower : ho.all toLowerFixed = true)
    (hport : portPart = [] ∨ ∃ p, portPart = ':' :: p ∧ ∀ a ∈ p, a.isDigit = true)
    (hstrip : (strip = [] ∨ ∃ t, strip = '/' :: t) ∧ ∀ a ∈ strip, pathChar a = true)
    (hsearch : search = [] ∨ ∃ q, search = '?' :: q ∧ ∀ a ∈ q, (a != '#') = true) :
    parseUrlRaw (sc ++ [':', '/', '/'] ++ ho ++ portPart ++ strip ++ search) =
      some ⟨sc, ho, portOut sc portPart,
        if strip.isEmpty then ['/'] else strip,
        queryOut search, none⟩ := by
  obtain ⟨hh, ht, rfl⟩ : ∃ hh ht, ho = hh :: ht := by
    cases ho with
    | nil => exact absurd rfl hho_ne
    | cons a t => exact ⟨a, t, rfl⟩
  have hho_auth : ∀ a ∈ hh :: ht, authChar a = true :=
    fun a ha => authChar_of_hostChar (hho a ha)
  have hho_colon : ∀ a ∈ hh :: ht, (a != ':') = true :=
    fun a ha => hostChar_ne_colon (hho a ha)
  have hho_at : ∀ a ∈ hh :: ht, (a != '@') = true :=
    fun a ha => hostChar_ne_at (hho a ha)
  have hport_auth : ∀ a ∈ portPart, authChar a = true := by
    rcases hport with h | ⟨p, rfl, hp⟩
    · subst h; intro a ha; cases ha
    · intro a ha
      rcases List.mem_cons.mp ha with rfl | ha
      · decide
      · exact authChar_of_digit (hp a ha)
  have hport_at : ∀ a ∈ portPart, (a != '@') = true := by
    rcases hport with h | ⟨p, rfl, hp⟩
    · subst h; intro a ha; cases ha
    · intro a ha
      rcases List.mem_cons.mp ha with rfl | ha
      · decide
      · exact digit_ne_at (hp a ha)
  have hstrip_q : ∀ a ∈ strip, (a != '?') = true :=
    fun a ha => pathChar_ne_qmark (hstrip.2 a ha)
  have hstrip_h : ∀ a ∈ strip, (a != '#') = true :=
    fun a ha => pathChar_ne_hash (hstrip.2 a ha)
  have hsearch_h : ∀ a ∈ search, (a != '#') = true := by
    rcases hsearch with h | ⟨q, rfl, hq⟩
    · subst h; intro a ha; cases ha
    · intro a ha
      rcases List.mem_cons.mp ha with rfl | ha
      · decide
      · exact hq a ha
  have hts_head : (strip ++ search).head?.all (fun c => !authChar c) = true := by
    rcases hstrip.1 with h | ⟨t, rfl⟩
    · subst h
      rcases hsearch with h | ⟨q, rfl, _⟩
      · subst h; rfl
      · simp [authChar]
    · simp [authChar]
  have hsearch_head : search.head?.all (fun c => !(c != '?')) = true := by
    rcases hsearch with h | ⟨q, rfl, _⟩
    · subst h; rfl
    · simp
  have hport_head : portPart.head?.all (fun c => !(c != ':')) = true := by
    rcases hport with h | ⟨p, rfl, _⟩
    · subst h; rfl
    · simp
  -- reassociate the serialized string
  have hS : sc ++ [':', '/', '/'] ++ (hh :: ht) ++ portPart ++ strip ++ search =
      sc ++ (':' :: '/' :: '/' :: ((hh :: ht) ++ (portPart ++ (strip ++ search)))) := by
    simp
  -- scheme split
  have e1 := takeWhile_append_all (fun x => x != ':') sc
    (':' :: '/' :: '/' :: ((hh :: ht) ++ (portPart ++ (strip ++ search))))
    hsc_colon (by simp)
  have eL1 : List.map Char.toLower sc = sc := map_toLower_of_fixed _ hsc_lower
  have eL2 : List.map Char.toLower (hh :: ht) = hh :: ht :=
    map_toLower_of_fixed _ hho_lower
  -- leading slashes of the authority
  have e2 : List.dropWhile (fun x => x == '/')
      ('/' :: '/' :: ((hh :: ht) ++ (portPart ++ (strip ++ search)))) =
      ((hh :: ht) ++ portPart) ++ (strip ++ search) := by
    have hhs := hostChar_ne_slash (hho hh (by simp))
    simp [List.dropWhile_cons, hhs]
  -- authority section
  have e3 := takeWhile_append_all authChar ((hh :: ht) ++ portPart) (strip ++ search)
    (by
      intro a ha
      rcases List.mem_append.mp ha with ha | ha
      · exact hho_auth a ha
      · exact hport_auth a ha)
    hts_head
  -- userinfo: no '@' anywhere in the authority
  have eAt : afterLastAt ((hh :: ht) ++ portPart) = (hh :: ht) ++ portPart :=
    afterLastAt_of_no_at _ (by
      intro a ha
      rcases List.mem_append.mp ha with ha | ha
      · exact hho_at a ha
      · exact hport_at a ha)
  -- host / port split
  have e4 := takeWhile_append_all (fun x => x != ':') (hh :: ht) portPart
    hho_colon hport_head
  -- path / query / fragment split
  have e5 : splitPQF (strip ++ search) = (strip, queryOut search, none) := by
    unfold splitPQF fragOf queryOut
    have eBH : (strip ++ search).takeWhile (fun x => x != '#') = strip ++ search := by
      apply takeWhile_all
      intro a ha
      rcases List.mem_append.mp ha with ha | ha
      · exact hstrip_h a ha
      · exact hsearch_h a ha
    have eFR : (strip ++ search).dropWhile (fun x => x != '#') = [] := by
      apply dropWhile_all
      intro a ha
      rcases List.mem_append.mp ha with ha | ha
      · exact hstrip_h a ha
      · exact hsearch_h a ha
    have ePQ := takeWhile_append_all (fun x => x != '?') strip search
      hstrip_q hsearch_head
    simp only [eBH, eFR, ePQ.1, ePQ.2]
    cases search <;> rfl
  -- assemble, by port shape
  rw [hS]
  rcases hport with h | ⟨p, rfl, hp⟩
  · subst h
    simp only [parseUrlRaw, e1.1, e1.2, eL1, hsp, if_true, e2, e3.1, e3.2, eAt,
      e4.1, e4.2, eL2, e5, portOut]
  · have hpd : p.all Char.isDigit = true := List.all_eq_true.mpr hp
    simp only [parseUrlRaw, e1.1, e1.2, eL1, hsp, if_true, e2, e3.1, e3.2, eAt,
      e4.1, e4.2, eL2, e5, hpd, portOut]


theorem dropLast_all {α : Type} (p : α → Bool) (l : List α)
    (h : ∀ a ∈ l, p a = true) : ∀ a ∈ l.dropLast, p a = true := by
  intro a ha
  exact h a (List.dropLast_subset l ha)

theorem reparse_normalize (u : UrlC) (hwf : urlWF u = true)
    (hsp : specialSchemes.contains u.scheme = true) :
    parseUrlC (originC u ++ stripTrailingSlash u.path ++ searchC u) =
      some (normTarget u) := by
  obtain ⟨sc, ho, po, pa, qu, fr⟩ := u
  simp only at hsp
  unfold urlWF at hwf
  simp only [hsp, if_true, Bool.and_eq_true] at hwf
  obtain ⟨⟨hsch, hquery⟩, hspecial⟩ := hwf
  obtain ⟨⟨⟨⟨⟨⟨hhone, hhoc⟩, hholo⟩, hport⟩, hpane⟩, hpahead⟩, hpac⟩ := hspecial
  -- scheme component facts
  have hsc_chars : ∀ a ∈ sc, schemeChar a = true := by
    unfold schemeWF at hsch
    simp only [Bool.and_eq_true] at hsch
    exact List.all_eq_true.mp hsch.1.1.2
  have hsc_lower : sc.all toLowerFixed = true := by
    unfold schemeWF at hsch
    simp only [Bool.and_eq_true] at hsch
    exact hsch.1.2
  have hsc_colon : ∀ a ∈ sc, (a != ':') = true :=
    fun a ha => schemeChar_ne_colon (hsc_chars a ha)
  -- host component facts
  have hho_ne : ho ≠ [] := by
    intro h
    subst h
    simp at hhone
  have hho_chars : ∀ a ∈ ho, hostChar a = true := List.all_eq_true.mp hhoc
  -- path component facts
  obtain ⟨pt, rfl⟩ : ∃ t, pa = '/' :: t := by
    cases pa with
    | nil => simp at hpane
    | cons c t =>
      simp only [beq_iff_eq] at hpahead
      exact ⟨t, by rw [hpahead]⟩
  have hpa_chars : ∀ a ∈ '/' :: pt, pathChar a = true := List.all_eq_true.mp hpac
  have hstrip_shape : stripTrailingSlash ('/' :: pt) = [] ∨
      ∃ t', stripTrailingSlash ('/' :: pt) = '/' :: t' := by
    unfold stripTrailingSlash
    split
    · cases pt with
      | nil => left; rfl
      | cons a t2 =>
        right
        exact ⟨(a :: t2).dropLast, by simp⟩
    · right; exact ⟨pt, rfl⟩
  have hstrip_chars : ∀ a ∈ stripTrailingSlash ('/' :: pt), pathChar a = true := by
    unfold stripTrailingSlash
    split
    · exact dropLast_all _ _ hpa_chars
    · exact hpa_chars
  -- port and search shapes
  have hportPart : portSer po = [] ∨
      ∃ p, portSer po = ':' :: p ∧ ∀ a ∈ p, a.isDigit = true := by
    cases po with
    | none => left; rfl
    | some p =>
      right
      refine ⟨p, rfl, ?_⟩
      simp only [Bool.and_eq_true] at hport
      exact List.all_eq_true.mp hport.1.2
  have hsearch_shape : searchC ⟨sc, ho, po, '/' :: pt, qu, fr⟩ = [] ∨
      ∃ q, searchC ⟨sc, ho, po, '/' :: pt, qu, fr⟩ = '?' :: q ∧
        ∀ a ∈ q, (a != '#') = true := by
    unfold searchC
    cases qu with
    | none => left; rfl
    | some q =>
      by_cases hq0 : q.isEmpty = true
      · left; simp [hq0]
      · right
        refine ⟨q, by simp [hq0], ?_⟩
        simp only at hquery
        exact List.all_eq_true.mp hquery
  -- run the serialized string through the raw parser
  have hser : originC ⟨sc, ho, po, '/' :: pt, qu, fr⟩ ++
      stripTrailingSlash ('/' :: pt) ++ searchC ⟨sc, ho, po, '/' :: pt, qu, fr⟩ =
      sc ++ [':', '/', '/'] ++ ho ++ portSer po ++
        stripTrailingSlash ('/' :: pt) ++ searchC ⟨sc, ho, po, '/' :: pt, qu, fr⟩ := by
    unfold originC portSer
    simp only [hsp, if_true]
    cases po <;> simp
  have hraw := parseUrlRaw_serialized sc ho (portSer po)
    (stripTrailingSlash ('/' :: pt)) (searchC ⟨sc, ho, po, '/' :: pt, qu, fr⟩)
    hsp hsc_colon hsc_lower hho_ne hho_chars hholo hportPart
    ⟨hstrip_shape, hstrip_chars⟩ hsearch_shape
  have hTwf : urlWF (normTarget ⟨sc, ho, po, '/' :: pt, qu, fr⟩) = true := by
    unfold normTarget urlWF
    simp only [hsp, if_true, Bool.and_eq_true]
    refine ⟨⟨hsch, ?_⟩, ⟨⟨⟨⟨⟨hhone, hhoc⟩, hholo⟩, ?_⟩, ?_⟩, ?_⟩, ?_⟩
    · -- query component of the reparsed record
      rcases hsearch_shape with h | ⟨q, hq, hqall⟩
      · rw [h]; rfl
      · rw [hq]
        unfold queryOut
        simp [List.all_eq_true.mpr hqall]
    · -- port component of the reparsed record
      cases po with
      | none => rfl
      | some p =>
        simp only [Bool.and_eq_true] at hport
        have hpne : p.isEmpty = false := by
          cases hpe : p.isEmpty
          · rfl
          · rw [hpe] at hport
            rcases hport with ⟨⟨hcontra, _⟩, _⟩
            cases hcontra
        have hpdef : (p == defaultPort sc) = false := by
          rcases hport with ⟨⟨_, _⟩, hne⟩
          exact beq_eq_false_iff_ne.mpr (of_decide_eq_true hne)
        unfold portSer portOut
        simp [hpne, hpdef, hport.1.2, hport.2]
    · -- reparsed path is nonempty
      by_cases hie : (stripTrailingSlash ('/' :: pt)).isEmpty = true
      · simp [hie]
      · simp [hie]
    · -- reparsed path starts with a slash
      by_cases hie : (stripTrailingSlash ('/' :: pt)).isEmpty = true
      · simp [hie]
      · rcases hstrip_shape with h | ⟨t', ht'⟩
        · rw [h] at hie
          simp at hie
        · simp [hie, ht']
    · -- reparsed path characters
      by_cases hie : (stripTrailingSlash ('/' :: pt)).isEmpty = true
      · simp [hie]
        decide
      · simp only [hie, if_false, Bool.false_eq_true, ite_false]
        exact List.all_eq_true.mpr hstrip_chars
  rw [hser]
  unfold parseUrlC
  rw [hraw]
  exact mkUrl?_of_wf hTwf

/-! ## C2: properties of the extracted link list -/

theorem strIncl_singleton_of_mem {c : Char} {s : Chars} (h : c ∈ s) :
    strIncl s [c] = true := by
  induction s with
  | nil => cases h
  | cons a t ih =>
    unfold strIncl
    rcases List.mem_cons.mp h with rfl | h
    · simp [prefixOfB]
    · simp [ih h]

theorem mem_jsSetDedupGo {r : String} : ∀ (seen l : List String),
    r ∈ jsSetDedupGo seen l → r ∈ l := by
  intro seen l
  induction l generalizing seen with
  | nil => intro h; cases h
  | cons x xs ih =>
    intro h
    unfold jsSetDedupGo at h
    split at h
    · exact List.mem_cons_of_mem _ (ih _ h)
    · rcases List.mem_cons.mp h with rfl | h
      · exact List.mem_cons_self _ _
      · exact List.mem_cons_of_mem _ (ih _ h)

theorem jsSetDedupGo_nodup : ∀ (l seen : List String),
    (∀ x ∈ jsSetDedupGo seen l, ¬ seen.contains x = true) ∧
      (jsSetDedupGo seen l).Nodup := by
  intro l
  induction l with
  | nil =>
    intro seen
    constructor
    · intro x hx
      cases hx
    · exact List.nodup_nil
  | cons x xs ih =>
    intro seen
    cases hx : seen.contains x with
    | true =>
      simp only [jsSetDedupGo, hx, if_true]
      exact ih seen
    | false =>
      simp only [jsSetDedupGo, hx, Bool.false_eq_true, if_false]
      have h2 := ih (seen ++ [x])
      constructor
      · intro y hy
        rcases List.mem_cons.mp hy with rfl | hy
        · intro hc
          rw [hx] at hc
          cases hc
        · intro hc
          apply h2.1 y hy
          have : y ∈ seen := List.elem_iff.mp hc
          exact List.elem_iff.mpr (List.mem_append_left _ this)
      · rw [List.nodup_cons]
        constructor
        · intro hmem
          apply h2.1 x hmem
          exact List.elem_iff.mpr (List.mem_append_right _ (by simp))
        · exact h2.2

theorem mem_extractLinks {links : List String} {baseUrl r : String}
    (h : r ∈ extractLinks links baseUrl) :
    ∃ link, link ∈ links ∧ isInternalUrl baseUrl link = true ∧
      linkFilterOk link = true ∧ r = normalizeUrl link := by
  unfold extractLinks at h
  have h1 := mem_jsSetDedupGo _ _ h
  rcases List.mem_map.mp h1 with ⟨link, hmem, rfl⟩
  rcases List.mem_filter.mp hmem with ⟨hmem2, hfok⟩
  rcases List.mem_filter.mp hmem2 with ⟨hmem3, hint⟩
  exact ⟨link, hmem3, hint, hfok, rfl⟩

theorem linkFilterOk_parse {link : String} (h : linkFilterOk link = true) :
    ∃ u, parseUrlC link.toList = some u ∧ u.fragment = none ∧
      strIncl (protocolC u) "javascript".toList = false ∧
      strIncl (protocolC u) "mailto".toList = false ∧
      strIncl (protocolC u) "tel".toList = false := by
  unfold linkFilterOk at h
  split at h
  · rename_i u hu
    obtain ⟨usc, uho, upo, upa, uqu, ufr⟩ := u
    simp only [Bool.and_eq_true, Bool.not_eq_true'] at h
    obtain ⟨⟨⟨hhash, hj⟩, hm⟩, ht⟩ := h
    refine ⟨⟨usc, uho, upo, upa, uqu, ufr⟩, hu, ?_, hj, hm, ht⟩
    cases ufr with
    | none => rfl
    | some f =>
      exfalso
      have hmem : '#' ∈ hrefC ⟨usc, uho, upo, upa, uqu, some f⟩ := by
        unfold hrefC
        simp
      have := strIncl_singleton_of_mem hmem
      rw [show ("#".toList : Chars) = ['#'] from rfl] at hhash
      rw [this] at hhash
      cases hhash
  · cases h

theorem resolveWithBase_of_ne {b u : UrlC} {s : Chars}
    (hu : parseUrlC s = some u)
    (hne : sameSchemeRef b.scheme s = false) :
    resolveWithBase b s = some u := by
  unfold resolveWithBase
  rw [hne]
  simp only [Bool.false_eq_true, if_false]
  rw [hu]

theorem isInternalUrl_scheme_or_host {baseUrl link : String} {b u : UrlC}
    (hb : parseUrlC baseUrl.toList = some b)
    (hu : parseUrlC link.toList = some u)
    (h : isInternalUrl baseUrl link = true) :
    u.scheme = b.scheme ∨ u.host = b.host := by
  cases hC : sameSchemeRef b.scheme link.toList with
  | true =>
    left
    unfold sameSchemeRef at hC
    simp only [Bool.and_eq_true, beq_iff_eq] at hC
    rw [parseUrlC_scheme hu]
    exact hC.1.2
  | false =>
    right
    have hpw : parseUrlWithBaseC baseUrl.toList link.toList = some u := by
      unfold parseUrlWithBaseC
      rw [hb]
      show resolveWithBase b link.toList = some u
      exact resolveWithBase_of_ne hu hC
    unfold isInternalUrl at h
    rw [hb, hpw] at h
    simp only [beq_iff_eq] at h
    exact h.symm

theorem special_host_ne {u : UrlC} (hwf : urlWF u = true)
    (hsp : specialSchemes.contains u.scheme = true) : u.host ≠ [] := by
  unfold urlWF at hwf
  simp only [hsp, if_true, Bool.and_eq_true] at hwf
  obtain ⟨_, ⟨⟨⟨⟨⟨hhone, _⟩, _⟩, _⟩, _⟩, _⟩, _⟩ := hwf
  intro h
  rw [h] at hhone
  simp at hhone

theorem special_of_host_ne {u : UrlC} (hwf : urlWF u = true) (h : u.host ≠ []) :
    specialSchemes.contains u.scheme = true := by
  by_cases hs : specialSchemes.contains u.scheme = true
  · exact hs
  · exfalso
    have hs' : specialSchemes.contains u.scheme = false := by
      cases hc : specialSchemes.contains u.scheme
      · rfl
      · exact absurd hc hs
    unfold urlWF at hwf
    simp only [hs', Bool.false_eq_true, if_false, Bool.and_eq_true] at hwf
    obtain ⟨_, ⟨hempty, _⟩, _⟩ := hwf
    apply h
    simpa [List.isEmpty_iff] using hempty

theorem normalizeUrl_toList {s : String} {u : UrlC}
    (h : parseUrlC s.toList = some u) :
    (normalizeUrl s).toList = originC u ++ stripTrailingSlash u.path ++ searchC u := by
  rw [normalizeUrl_parsed _ _ h]
  rfl

/-- C2.  Amended: `isInternalUrl` compares hostnames of base-resolved
URLs while the returned string comes from the href's absolute parse, so
for every list of raw hrefs and every base URL that parses with a special
scheme, each URL in the list `extractLinks` returns re-parses with a
special scheme and carries the base's scheme or the base's hostname (the
same-origin claim fails, and neither disjunct holds alone: a same-hostname
link may differ in scheme, and a scheme-relative href such as `http:foo`
against `http://x.com` resolves to the base's host yet normalizes by its
absolute parse to another host — see the counterexample), re-parses
without a fragment, has none of the javascript/mailto/tel protocols, and
the list contains no duplicates. -/
theorem spec_C2 : ∀ (links : List String) (baseUrl : String) (b : UrlC),
    parseUrlC baseUrl.toList = some b →
    specialSchemes.contains b.scheme = true →
    (extractLinks links baseUrl).Nodup ∧
    ∀ r ∈ extractLinks links baseUrl, ∃ u', parseUrlC r.toList = some u' ∧
      specialSchemes.contains u'.scheme = true ∧
      (u'.scheme = b.scheme ∨ u'.host = b.host) ∧ u'.fragment = none ∧
      strIncl (protocolC u') "javascript".toList = false ∧
      strIncl (protocolC u') "mailto".toList = false ∧
      strIncl (protocolC u') "tel".toList = false := by
  intro links baseUrl b hb hbsp
  constructor
  · exact (jsSetDedupGo_nodup _ []).2
  · intro r hr
    obtain ⟨link, _, hint, hfok, rfl⟩ := mem_extractLinks hr
    obtain ⟨u, hu, hufrag, hj, hm, htl⟩ := linkFilterOk_parse hfok
    have hdisj : u.scheme = b.scheme ∨ u.host = b.host :=
      isInternalUrl_scheme_or_host hb hu hint
    have husp : specialSchemes.contains u.scheme = true := by
      cases hdisj with
      | inl hsc => rw [hsc]; exact hbsp
      | inr hho =>
        have hbne : b.host ≠ [] := special_host_ne (parseUrlC_wf hb) hbsp
        exact special_of_host_ne (parseUrlC_wf hu) (by rw [hho]; exact hbne)
    have hre := reparse_normalize u (parseUrlC_wf hu) husp
    refine ⟨normTarget u, ?_, ?_, ?_, rfl, hj, hm, htl⟩
    · rw [normalizeUrl_toList hu]
      exact hre
    · exact husp
    · exact hdisj

/-- C2 counterexample: with base `https://x.com`, the raw href
`http://x.com/page` (same hostname, different scheme) survives all the
filters and is returned, yet it is not same-origin with the base; and
with base `http://x.com` the scheme-relative href `http:foo` resolves to
the base's host, survives the filters, yet normalizes by its absolute
parse to `http://foo`, whose hostname `foo` differs from the base's
`x.com`. -/
theorem spec_C2_cex :
    (extractLinks ["http://x.com/page"] "https://x.com" = ["http://x.com/page"] ∧
     sameOriginB "https://x.com" "http://x.com/page" = false) ∧
    (extractLinks ["http:foo"] "http://x.com" = ["http://foo"] ∧
     (parseUrlC "http://foo".toList).map UrlC.host = some "foo".toList ∧
     (parseUrlC "http://x.com".toList).map UrlC.host = some "x.com".toList) := by
  decide

/-- C2 witness: the amended statement applied at a concrete link list. -/
theorem spec_C2_witness :
    (extractLinks ["http:foo"] "http://x.com").Nodup ∧
    (∃ u', parseUrlC "http://foo".toList = some u' ∧
      specialSchemes.contains u'.scheme = true ∧
      (u'.scheme = "http".toList ∨ u'.host = "x.com".toList) ∧
      u'.fragment = none ∧
      strIncl (protocolC u') "javascript".toList = false ∧
      strIncl (protocolC u') "mailto".toList = false ∧
      strIncl (protocolC u') "tel".toList = false) :=
  ⟨(spec_C2 ["http:foo"] "http://x.com"
      ⟨"http".toList, "x.com".toList, none, "/".toList, none, none⟩
      (by decide) (by decide)).1,
   (spec_C2 ["http:foo"] "http://x.com"
      ⟨"http".toList, "x.com".toList, none, "/".toList, none, none⟩
      (by decide) (by decide)).2 "http://foo" (by decide)⟩

/-! ## Unfolding equations of the crawl loop -/

theorem crawlLoop_nil {site : String → Except String (String × List String)}
    {sessionId startUrl : String} {maxPages : Nat} {smartDedup : Bool}
    {cancelled : Nat → Bool} {st : CrawlState} {n : Nat} (hq : st.queue = []) :
    crawlLoop site sessionId startUrl maxPages smartDedup cancelled st n =
      ⟨st, n, [], [(n, st)]⟩ := by
  rw [crawlLoop.eq_def]
  split
  · rfl
  · rename_i cur rest hq2
    rw [hq] at hq2
    cases hq2

theorem crawlLoop_exit {site : String → Except String (String × List String)}
    {sessionId startUrl : String} {maxPages : Nat} {smartDedup : Bool}
    {cancelled : Nat → Bool} {st : CrawlState} {n : Nat} {cur : String}
    {rest : List String} (hq : st.queue = cur :: rest)
    (hc : ¬(st.visited.length < maxPages ∧ cancelled n = false)) :
    crawlLoop site sessionId startUrl maxPages smartDedup cancelled st n =
      ⟨st, n, [], [(n, st)]⟩ := by
  rw [crawlLoop.eq_def]
  split
  · rfl
  · rename_i cur2 rest2 hq2
    rw [dif_neg]
    intro hcc
    exact hc hcc

theorem crawlLoop_skip {site : String → Except String (String × List String)}
    {sessionId startUrl : String} {maxPages : Nat} {smartDedup : Bool}
    {cancelled : Nat → Bool} {st : CrawlState} {n : Nat} {cur : String}
    {rest : List String} (hq : st.queue = cur :: rest)
    (hc : st.visited.length < maxPages ∧ cancelled n = false)
    (hv : st.visited.contains cur = true) :
    crawlLoop site sessionId startUrl maxPages smartDedup cancelled st n =
      (let out := crawlLoop site sessionId startUrl maxPages smartDedup cancelled
        { st with queue := rest } (n + 1)
      ⟨out.final, out.finalN, out.events, (n, st) :: out.trace⟩) := by
  rw [crawlLoop.eq_def]
  split
  · rename_i hq2
    rw [hq] at hq2
    cases hq2
  · rename_i cur2 rest2 hq2
    rw [hq] at hq2
    injection hq2 with h1 h2
    subst h1
    subst h2
    rw [dif_pos hc, dif_pos hv]

theorem crawlLoop_error {site : String → Except String (String × List String)}
    {sessionId startUrl : String} {maxPages : Nat} {smartDedup : Bool}
    {cancelled : Nat → Bool} {st : CrawlState} {n : Nat} {cur : String}
    {rest : List String} {msg : String} (hq : st.queue = cur :: rest)
    (hc : st.visited.length < maxPages ∧ cancelled n = false)
    (hv : ¬ st.visited.contains cur = true)
    (hsite : site cur = .error msg) :
    crawlLoop site sessionId startUrl maxPages smartDedup cancelled st n =
      (let out := crawlLoop site sessionId startUrl maxPages smartDedup cancelled
        (errorState st cur rest msg) (n + 1)
      ⟨out.final, out.finalN,
       progressEvent maxPages st cur rest :: out.events,
       (n, st) :: out.trace⟩) := by
  rw [crawlLoop.eq_def]
  split
  · rename_i hq2
    rw [hq] at hq2
    cases hq2
  · rename_i cur2 rest2 hq2
    rw [hq] at hq2
    injection hq2 with h1 h2
    subst h1
    subst h2
    rw [dif_pos hc, dif_neg hv]
    rw [hsite]

theorem crawlLoop_ok {site : String → Except String (String × List String)}
    {sessionId startUrl : String} {maxPages : Nat} {smartDedup : Bool}
    {cancelled : Nat → Bool} {st : CrawlState} {n : Nat} {cur : String}
    {rest : List String} {title : String} {rawLinks : List String}
    (hq : st.queue = cur :: rest)
    (hc : st.visited.length < maxPages ∧ cancelled n = false)
    (hv : ¬ st.visited.contains cur = true)
    (hsite : site cur = .ok (title, rawLinks)) :
    crawlLoop site sessionId startUrl maxPages smartDedup cancelled st n =
      (let out := crawlLoop site sessionId startUrl maxPages smartDedup cancelled
        (successState sessionId startUrl smartDedup st cur rest title rawLinks) (n + 1)
      ⟨out.final, out.finalN,
       progressEvent maxPages st cur rest ::
         .screenshot (successResult sessionId (st.visited.length + 1) cur title
           (extractLinks rawLinks startUrl).length) :: out.events,
       (n, st) :: out.trace⟩) := by
  rw [crawlLoop.eq_def]
  split
  · rename_i hq2
    rw [hq] at hq2
    cases hq2
  · rename_i cur2 rest2 hq2
    rw [hq] at hq2
    injection hq2 with h1 h2
    subst h1
    subst h2
    rw [dif_pos hc, dif_neg hv]
    rw [hsite]

/-! ## Structural facts about the crawl loop -/

theorem crawlLoop_basic
    (site : String → Except String (String × List String))
    (sessionId startUrl : String) (maxPages : Nat) (smartDedup : Bool)
    (cancelled : Nat → Bool) :
    ∀ (st : CrawlState) (n : Nat) (out : LoopOut),
    crawlLoop site sessionId startUrl maxPages smartDedup cancelled st n = out →
    out.trace.head? = some (n, st) ∧
    out.trace.getLast? = some (out.finalN, out.final) ∧
    exitCond maxPages cancelled out.final out.finalN = true ∧
    (∀ p ∈ out.trace.dropLast, exitCond maxPages cancelled p.2 p.1 = false) ∧
    n ≤ out.finalN ∧
    (∀ m, n ≤ m → m < out.finalN → cancelled m = false) ∧
    out.events.countP isProgressEvent ≤ out.finalN - n ∧
    out.events.countP isCompleteEvent = 0 := by
  intro st n
  induction st, n using crawlLoop.induct site sessionId startUrl maxPages smartDedup cancelled with
  | case1 st n hq =>
    intro out hout
    rw [crawlLoop_nil hq] at hout
    subst hout
    dsimp only
    refine ⟨rfl, rfl, ?_, ?_, Nat.le_refl n, ?_, ?_, ?_⟩
    · simp [exitCond, hq]
    · intro p hp
      simp at hp
    · intro m h1 h2
      omega
    · simp
    · simp
  | case5 st n cur rest hq hc =>
    intro out hout
    rw [crawlLoop_exit hq hc] at hout
    subst hout
    dsimp only
    refine ⟨rfl, rfl, ?_, ?_, Nat.le_refl n, ?_, ?_, ?_⟩
    · cases hcan : cancelled n with
      | true => simp [exitCond, hcan]
      | false =>
        have hlen : maxPages ≤ st.visited.length := by
          by_contra hlt
          push_neg at hlt
          exact hc ⟨hlt, hcan⟩
        simp [exitCond, hlen]
    · intro p hp
      simp at hp
    · intro m h1 h2
      omega
    · simp
    · simp
  | case2 st n cur rest hq hc hv ih =>
    intro out hout
    rw [crawlLoop_skip hq hc hv] at hout
    simp only at hout
    subst hout
    dsimp only
    obtain ⟨ih1, ih2, ih3, ih4, ih5, ih6, ih7, ih8⟩ := ih _ rfl
    obtain ⟨t0, ttail, ht⟩ : ∃ t0 ttail,
        (crawlLoop site sessionId startUrl maxPages smartDedup cancelled
          { st with queue := rest } (n + 1)).trace = t0 :: ttail := by
      cases hcase : (crawlLoop site sessionId startUrl maxPages smartDedup cancelled
          { st with queue := rest } (n + 1)).trace with
      | nil => rw [hcase] at ih1; cases ih1
      | cons a b => exact ⟨a, b, rfl⟩
    rw [ht] at ih1 ih2 ih4 ⊢
    refine ⟨rfl, ?_, ih3, ?_, by omega, ?_, ?_, ih8⟩
    · simp only [List.getLast?_cons_cons]
      exact ih2
    · intro p hp
      simp only [List.dropLast_cons₂, List.mem_cons] at hp
      rcases hp with rfl | hp
      · simp [exitCond, hq, hc.2, decide_eq_false (Nat.not_le.mpr hc.1)]
      · exact ih4 p hp
    · intro m h1 h2
      rcases Nat.eq_or_lt_of_le h1 with rfl | h1'
      · exact hc.2
      · exact ih6 m h1' h2
    · calc (crawlLoop site sessionId startUrl maxPages smartDedup cancelled
          { st with queue := rest } (n + 1)).events.countP isProgressEvent
          ≤ (crawlLoop site sessionId startUrl maxPages smartDedup cancelled
            { st with queue := rest } (n + 1)).finalN - (n + 1) := ih7
        _ ≤ _ - n := by omega
  | case3 st n cur rest hq hc hv msg hsite ih =>
    intro out hout
    rw [crawlLoop_error hq hc hv hsite] at hout
    simp only at hout
    subst hout
    dsimp only
    obtain ⟨ih1, ih2, ih3, ih4, ih5, ih6, ih7, ih8⟩ := ih _ rfl
    obtain ⟨t0, ttail, ht⟩ : ∃ t0 ttail,
        (crawlLoop site sessionId startUrl maxPages smartDedup cancelled
          (errorState st cur rest msg) (n + 1)).trace = t0 :: ttail := by
      cases hcase : (crawlLoop site sessionId startUrl maxPages smartDedup cancelled
          (errorState st cur rest msg) (n + 1)).trace with
      | nil => rw [hcase] at ih1; cases ih1
      | cons a b => exact ⟨a, b, rfl⟩
    rw [ht] at ih1 ih2 ih4 ⊢
    refine ⟨rfl, ?_, ih3, ?_, by omega, ?_, ?_, ?_⟩
    · simp only [List.getLast?_cons_cons]
      exact ih2
    · intro p hp
      simp only [List.dropLast_cons₂, List.mem_cons] at hp
      rcases hp with rfl | hp
      · simp [exitCond, hq, hc.2, decide_eq_false (Nat.not_le.mpr hc.1)]
      · exact ih4 p hp
    · intro m h1 h2
      rcases Nat.eq_or_lt_of_le h1 with rfl | h1'
      · exact hc.2
      · exact ih6 m h1' h2
    · simp only [List.countP_cons, isProgressEvent, progressEvent,
        eq_self_iff_true, if_true, Bool.false_eq_true, if_false]
      omega
    · simp only [List.countP_cons, isCompleteEvent, progressEvent,
        Bool.false_eq_true, if_false, eq_self_iff_true, if_true]
      omega
  | case4 st n cur rest hq hc hv title rawLinks hsite st' ih =>
    intro out hout
    rw [crawlLoop_ok hq hc hv hsite] at hout
    simp only at hout
    subst hout
    dsimp only
    obtain ⟨ih1, ih2, ih3, ih4, ih5, ih6, ih7, ih8⟩ := ih _ rfl
    have hst' : st' = successState sessionId startUrl smartDedup st cur rest
      title rawLinks := rfl
    rw [hst'] at ih1 ih2 ih3 ih4 ih5 ih6 ih7 ih8
    obtain ⟨t0, ttail, ht⟩ : ∃ t0 ttail,
        (crawlLoop site sessionId startUrl maxPages smartDedup cancelled
          (successState sessionId startUrl smartDedup st cur rest title rawLinks)
          (n + 1)).trace = t0 :: ttail := by
      cases hcase : (crawlLoop site sessionId startUrl maxPages smartDedup cancelled
          (successState sessionId startUrl smartDedup st cur rest title rawLinks)
          (n + 1)).trace with
      | nil => rw [hcase] at ih1; cases ih1
      | cons a b => exact ⟨a, b, rfl⟩
    rw [ht] at ih1 ih2 ih4 ⊢
    refine ⟨rfl, ?_, ih3, ?_, by omega, ?_, ?_, ?_⟩
    · simp only [List.getLast?_cons_cons]
      exact ih2
    · intro p hp
      simp only [List.dropLast_cons₂, List.mem_cons] at hp
      rcases hp with rfl | hp
      · simp [exitCond, hq, hc.2, decide_eq_false (Nat.not_le.mpr hc.1)]
      · exact ih4 p hp
    · intro m h1 h2
      rcases Nat.eq_or_lt_of_le h1 with rfl | h1'
      · exact hc.2
      · exact ih6 m h1' h2
    · simp only [List.countP_cons, isProgressEvent, progressEvent,
        eq_self_iff_true, if_true, Bool.false_eq_true, if_false]
      omega
    · simp only [List.countP_cons, isCompleteEvent, progressEvent,
        Bool.false_eq_true, if_false, eq_self_iff_true, if_true]
      omega

/-! ## Invariant preservation of the crawl loop -/

theorem not_mem_of_contains_false {l : List String} {x : String}
    (h : l.contains x = false) : x ∉ l := by
  intro hmem
  have h2 : l.contains x = true := List.elem_iff.mpr hmem
  rw [h2] at h
  cases h

theorem admitLinks_spec (smartDedup : Bool) (visited patterns : List String) :
    ∀ (links queue : List String) (skipped : List SkipRecord),
    queue.Nodup → (∀ u ∈ queue, u ∉ visited) →
    (admitLinks smartDedup visited patterns links queue skipped).1.Nodup ∧
    ∀ u ∈ (admitLinks smartDedup visited patterns links queue skipped).1,
      u ∉ visited := by
  intro links
  induction links with
  | nil =>
    intro queue skipped h1 h2
    exact ⟨h1, h2⟩
  | cons link ls ih =>
    intro queue skipped h1 h2
    unfold admitLinks
    split
    · rename_i hcond
      simp only [Bool.and_eq_true, Bool.not_eq_true'] at hcond
      split
      · exact ih _ _ h1 h2
      · apply ih
        · simp [List.nodup_append, h1, not_mem_of_contains_false hcond.2]
        · intro u hu
          rcases List.mem_append.mp hu with hu | hu
          · exact h2 u hu
          · rcases List.mem_singleton.mp hu with rfl
            exact not_mem_of_contains_false hcond.1
    · exact ih _ _ h1 h2

theorem crawlInv_error {site : String → Except String (String × List String)}
    {maxPages : Nat} {st : CrawlState} {cur : String} {rest : List String}
    {msg : String} (hInv : CrawlInv site maxPages st) (hq : st.queue = cur :: rest)
    (hmax : st.visited.length < maxPages)
    (hv : ¬ st.visited.contains cur = true)
    (hsite : site cur = .error msg) :
    CrawlInv site maxPages (errorState st cur rest msg) := by
  obtain ⟨hQnd, hQdis, hVnd, hLen, hIds, hRes, hBud⟩ := hInv
  rw [hq] at hQnd hQdis
  rw [List.nodup_cons] at hQnd
  have hcurv : cur ∉ st.visited := by
    intro hmem
    exact hv (List.elem_iff.mpr hmem)
  refine ⟨hQnd.2, ?_, ?_, ?_, ?_, ?_, ?_⟩
  · intro u hu
    simp only [errorState, List.mem_append, List.mem_singleton]
    push_neg
    constructor
    · exact hQdis u (List.mem_cons_of_mem _ hu)
    · intro rfl2
      subst rfl2
      exact hQnd.1 hu
  · simp only [errorState]
    simp [List.nodup_append, hVnd, hcurv]
  · simp [errorState]
    omega
  · intro i h
    simp only [errorState, List.length_append, List.length_cons,
      List.length_nil] at h
    simp only [errorState, List.get_eq_getElem]
    by_cases hi : i < st.results.length
    · rw [List.getElem_append_left hi]
      have := hIds i hi
      simpa [List.get_eq_getElem] using this
    · have hieq : i = st.results.length := by omega
      rw [List.getElem_concat_length _ _ _ hieq]
      simp only [errorResult]
      simp [hieq, hLen]
  · intro r hr
    simp only [errorState, List.mem_append, List.mem_singleton] at hr
    rcases hr with hr | rfl
    · obtain ⟨hurl, hfact⟩ := hRes r hr
      exact ⟨List.mem_append_left _ hurl, hfact⟩
    · refine ⟨List.mem_append_right _ (by simp [errorResult]), ?_⟩
      intro msg' hmsg'
      simp only [errorResult] at hmsg' ⊢
      rw [hsite] at hmsg'
      injection hmsg' with h1
      subst h1
      simp
  · simp only [errorState, List.length_append, List.length_cons, List.length_nil]
    omega

theorem crawlInv_ok {site : String → Except String (String × List String)}
    {maxPages : Nat} (sessionId startUrl : String) (smartDedup : Bool)
    {st : CrawlState} {cur : String} {rest : List String}
    {title : String} {rawLinks : List String}
    (hInv : CrawlInv site maxPages st) (hq : st.queue = cur :: rest)
    (hmax : st.visited.length < maxPages)
    (hv : ¬ st.visited.contains cur = true)
    (hsite : site cur = .ok (title, rawLinks)) :
    CrawlInv site maxPages
      (successState sessionId startUrl smartDedup st cur rest title rawLinks) := by
  obtain ⟨hQnd, hQdis, hVnd, hLen, hIds, hRes, hBud⟩ := hInv
  rw [hq] at hQnd hQdis
  rw [List.nodup_cons] at hQnd
  have hcurv : cur ∉ st.visited := by
    intro hmem
    exact hv (List.elem_iff.mpr hmem)
  have hrest : ∀ u ∈ rest, u ∉ st.visited ++ [cur] := by
    intro u hu
    simp only [List.mem_append, List.mem_singleton]
    push_neg
    constructor
    · exact hQdis u (List.mem_cons_of_mem _ hu)
    · intro rfl2
      subst rfl2
      exact hQnd.1 hu
  have hAdm := admitLinks_spec smartDedup (st.visited ++ [cur])
    (if smartDedup then (markPatternVisited cur st.visitedPatterns).1
     else st.visitedPatterns)
    (extractLinks rawLinks startUrl) rest st.skippedUrls hQnd.2 hrest
  refine ⟨hAdm.1, hAdm.2, ?_, ?_, ?_, ?_, ?_⟩
  · simp only [successState]
    simp [List.nodup_append, hVnd, hcurv]
  · simp [successState]
    omega
  · intro i h
    simp only [successState, List.length_append, List.length_cons,
      List.length_nil] at h
    simp only [successState, List.get_eq_getElem]
    by_cases hi : i < st.results.length
    · rw [List.getElem_append_left hi]
      have := hIds i hi
      simpa [List.get_eq_getElem] using this
    · have hieq : i = st.results.length := by omega
      rw [List.getElem_concat_length _ _ _ hieq]
      simp only [successResult]
      simp [hieq, hLen]
  · intro r hr
    simp only [successState, List.mem_append, List.mem_singleton] at hr
    rcases hr with hr | rfl
    · obtain ⟨hurl, hfact⟩ := hRes r hr
      exact ⟨List.mem_append_left _ hurl, hfact⟩
    · refine ⟨List.mem_append_right _ (by simp [successResult]), ?_⟩
      intro msg' hmsg'
      simp only [successResult] at hmsg'
      rw [hsite] at hmsg'
      cases hmsg'
  · simp only [successState, List.length_append, List.length_cons, List.length_nil]
    omega

theorem crawlLoop_inv
    (site : String → Except String (String × List String))
    (sessionId startUrl : String) (maxPages : Nat) (smartDedup : Bool)
    (cancelled : Nat → Bool) :
    ∀ (st : CrawlState) (n : Nat) (out : LoopOut),
    crawlLoop site sessionId startUrl maxPages smartDedup cancelled st n = out →
    CrawlInv site maxPages st →
    (∀ p ∈ out.trace, CrawlInv site maxPages p.2) ∧
    (∀ p ∈ out.trace, ∀ u ∈ st.visited, u ∈ p.2.visited) ∧
    out.trace.Pairwise (fun p q => ∀ u ∈ p.2.visited, u ∈ q.2.visited) := by
  intro st n
  induction st, n using crawlLoop.induct site sessionId startUrl maxPages smartDedup cancelled with
  | case1 st n hq =>
    intro out hout hInv
    rw [crawlLoop_nil hq] at hout
    subst hout
    dsimp only
    refine ⟨?_, ?_, ?_⟩
    · intro p hp
      rcases List.mem_singleton.mp hp with rfl
      exact hInv
    · intro p hp
      rcases List.mem_singleton.mp hp with rfl
      intro u hu
      exact hu
    · simp
  | case5 st n cur rest hq hc =>
    intro out hout hInv
    rw [crawlLoop_exit hq hc] at hout
    subst hout
    dsimp only
    refine ⟨?_, ?_, ?_⟩
    · intro p hp
      rcases List.mem_singleton.mp hp with rfl
      exact hInv
    · intro p hp
      rcases List.mem_singleton.mp hp with rfl
      intro u hu
      exact hu
    · simp
  | case2 st n cur rest hq hc hv ih =>
    intro out hout hInv
    rw [crawlLoop_skip hq hc hv] at hout
    simp only at hout
    subst hout
    dsimp only
    have hInvMid : CrawlInv site maxPages { st with queue := rest } := by
      obtain ⟨hQnd, hQdis, hVnd, hLen, hIds, hRes, hBud⟩ := hInv
      rw [hq] at hQnd hQdis
      rw [List.nodup_cons] at hQnd
      exact ⟨hQnd.2, fun u hu => hQdis u (List.mem_cons_of_mem _ hu),
        hVnd, hLen, hIds, hRes, hBud⟩
    obtain ⟨ih1, ih2, ih3⟩ := ih _ rfl hInvMid
    refine ⟨?_, ?_, ?_⟩
    · intro p hp
      rcases List.mem_cons.mp hp with rfl | hp
      · exact hInv
      · exact ih1 p hp
    · intro p hp
      rcases List.mem_cons.mp hp with rfl | hp
      · intro u hu
        exact hu
      · exact ih2 p hp
    · rw [List.pairwise_cons]
      exact ⟨fun q hq2 => ih2 q hq2, ih3⟩
  | case3 st n cur rest hq hc hv msg hsite ih =>
    intro out hout hInv
    rw [crawlLoop_error hq hc hv hsite] at hout
    simp only at hout
    subst hout
    dsimp only
    have hInvStep : CrawlInv site maxPages (errorState st cur rest msg) :=
      crawlInv_error hInv hq hc.1 hv hsite
    obtain ⟨ih1, ih2, ih3⟩ := ih _ rfl hInvStep
    have hsub : ∀ u ∈ st.visited, u ∈ (errorState st cur rest msg).visited := by
      intro u hu
      simp only [errorState]
      exact List.mem_append_left _ hu
    refine ⟨?_, ?_, ?_⟩
    · intro p hp
      rcases List.mem_cons.mp hp with rfl | hp
      · exact hInv
      · exact ih1 p hp
    · intro p hp
      rcases List.mem_cons.mp hp with rfl | hp
      · intro u hu
        exact hu
      · intro u hu
        exact ih2 p hp u (hsub u hu)
    · rw [List.pairwise_cons]
      refine ⟨?_, ih3⟩
      intro q hq2 u hu
      exact ih2 q hq2 u (hsub u hu)
  | case4 st n cur rest hq hc hv title rawLinks hsite st' ih =>
    intro out hout hInv
    rw [crawlLoop_ok hq hc hv hsite] at hout
    simp only at hout
    subst hout
    dsimp only
    have hInvStep : CrawlInv site maxPages
        (successState sessionId startUrl smartDedup st cur rest title rawLinks) :=
      crawlInv_ok sessionId startUrl smartDedup hInv hq hc.1 hv hsite
    have hst' : st' = successState sessionId startUrl smartDedup st cur rest
      title rawLinks := rfl
    rw [hst'] at ih
    obtain ⟨ih1, ih2, ih3⟩ := ih _ rfl hInvStep
    have hsub : ∀ u ∈ st.visited,
        u ∈ (successState sessionId startUrl smartDedup st cur rest title
          rawLinks).visited := by
      intro u hu
      simp only [successState]
      exact List.mem_append_left _ hu
    refine ⟨?_, ?_, ?_⟩
    · intro p hp
      rcases List.mem_cons.mp hp with rfl | hp
      · exact hInv
      · exact ih1 p hp
    · intro p hp
      rcases List.mem_cons.mp hp with rfl | hp
      · intro u hu
        exact hu
      · intro u hu
        exact ih2 p hp u (hsub u hu)
    · rw [List.pairwise_cons]
      refine ⟨?_, ih3⟩
      intro q hq2 u hu
      exact ih2 q hq2 u (hsub u hu)

theorem crawlInv_init (site : String → Except String (String × List String))
    (maxPages : Nat) (startUrl : String) :
    CrawlInv site maxPages (initState startUrl) := by
  refine ⟨?_, ?_, ?_, ?_, ?_, ?_, ?_⟩ <;> simp [initState]

/-! ## C5, C6, C9: loop invariants and error handling -/

/-- C5.  Starting from the initial frontier, every state observed at the
top of the crawl loop has at most `maxPages` visited pages; the loop exits
exactly when the termination predicate (queue empty, or budget reached, or
cancelled) holds — the predicate is false at every iterated check and true
at the final one — so the loop terminates at or before the budget bound. -/
theorem spec_C5 :
    ∀ (site : String → Except String (String × List String))
      (sessionId startUrl : String) (maxPages : Nat) (smartDedup : Bool)
      (cancelled : Nat → Bool) (out : LoopOut),
    crawlLoop site sessionId startUrl maxPages smartDedup cancelled
      (initState startUrl) 0 = out →
    (∀ p ∈ out.trace, p.2.visited.length ≤ maxPages) ∧
    exitCond maxPages cancelled out.final out.finalN = true ∧
    (∀ p ∈ out.trace.dropLast, exitCond maxPages cancelled p.2 p.1 = false) ∧
    out.trace.getLast? = some (out.finalN, out.final) := by
  intro site sessionId startUrl maxPages smartDedup cancelled out hout
  obtain ⟨b1, b2, b3, b4, b5, b6, b7, b8⟩ :=
    crawlLoop_basic site sessionId startUrl maxPages smartDedup cancelled
      (initState startUrl) 0 out hout
  obtain ⟨i1, i2, i3⟩ :=
    crawlLoop_inv site sessionId startUrl maxPages smartDedup cancelled
      (initState startUrl) 0 out hout (crawlInv_init site maxPages startUrl)
  exact ⟨fun p hp => (i1 p hp).2.2.2.2.2.2, b3, b4, b2⟩

/-- C5 witness: the theorem applied to a crawl with budget 0, which exits
at the very first check. -/
theorem spec_C5_witness :
    exitCond 0 (fun _ => false) (initState "u") 0 = true ∧
    (initState "u").visited.length ≤ 0 :=
  have heval : crawlLoop (fun _ => Except.error "x") "s" "u" 0 false
      (fun _ => false) (initState "u") 0 =
      ⟨initState "u", 0, [], [(0, initState "u")]⟩ :=
    crawlLoop_exit (by decide : (initState "u").queue = "u" :: []) (by decide)
  have h := spec_C5 (fun _ => Except.error "x") "s" "u" 0 false (fun _ => false)
    ⟨initState "u", 0, [], [(0, initState "u")]⟩ heval
  ⟨h.2.1, h.1 (0, initState "u") (by decide)⟩

/-- C6.  At every point during a crawl each canonical URL appears in the
queue at most once and never while visited, and a URL moved into
`visited` stays visited and is never enqueued again at any later point. -/
theorem spec_C6 :
    ∀ (site : String → Except String (String × List String))
      (sessionId startUrl : String) (maxPages : Nat) (smartDedup : Bool)
      (cancelled : Nat → Bool) (out : LoopOut),
    crawlLoop site sessionId startUrl maxPages smartDedup cancelled
      (initState startUrl) 0 = out →
    (∀ p ∈ out.trace, p.2.queue.Nodup ∧ ∀ u ∈ p.2.queue, u ∉ p.2.visited) ∧
    out.trace.Pairwise
      (fun p q => ∀ u ∈ p.2.visited, u ∈ q.2.visited ∧ u ∉ q.2.queue) := by
  intro site sessionId startUrl maxPages smartDedup cancelled out hout
  obtain ⟨i1, i2, i3⟩ :=
    crawlLoop_inv site sessionId startUrl maxPages smartDedup cancelled
      (initState startUrl) 0 out hout (crawlInv_init site maxPages startUrl)
  constructor
  · intro p hp
    obtain ⟨hQnd, hQdis, _⟩ := i1 p hp
    exact ⟨hQnd, hQdis⟩
  · apply List.Pairwise.imp_of_mem ?_ i3
    intro p q hp hq hR u hu
    obtain ⟨_, hQdis, _⟩ := i1 q hq
    have huq : u ∈ q.2.visited := hR u hu
    exact ⟨huq, fun hmem => hQdis u hmem huq⟩

/-- C6 witness: the theorem applied to a crawl with budget 0. -/
theorem spec_C6_witness :
    (initState "u").queue.Nodup ∧ "u" ∉ (initState "u").visited :=
  have heval : crawlLoop (fun _ => Except.error "x") "s" "u" 0 false
      (fun _ => false) (initState "u") 0 =
      ⟨initState "u", 0, [], [(0, initState "u")]⟩ :=
    crawlLoop_exit (by decide : (initState "u").queue = "u" :: []) (by decide)
  have h := spec_C6 (fun _ => Except.error "x") "s" "u" 0 false (fun _ => false)
    ⟨initState "u", 0, [], [(0, initState "u")]⟩ heval
  ⟨(h.1 (0, initState "u") (by decide)).1,
   (h.1 (0, initState "u") (by decide)).2 "u" (by decide)⟩

/-- C9.  Result sequence numbers are exactly the 1-based dequeue positions;
a failed navigation is recorded as a Result with the error message and
title "Error"; every recorded page (failed ones included) stays in
`visited` and outside the queue; and a per-page failure appends its error
Result and lets the loop proceed with the next iteration (the unfolding
equation of the loop at a failing head). -/
theorem spec_C9 :
    ∀ (site : String → Except String (String × List String))
      (sessionId startUrl : String) (maxPages : Nat) (smartDedup : Bool)
      (cancelled : Nat → Bool) (out : LoopOut),
    crawlLoop site sessionId startUrl maxPages smartDedup cancelled
      (initState startUrl) 0 = out →
    (∀ (i : Nat) (h : i < out.final.results.length),
      (out.final.results.get ⟨i, h⟩).id = i + 1) ∧
    (∀ r ∈ out.final.results,
      (∀ msg, site r.url = .error msg → r.error = some msg ∧ r.title = "Error") ∧
      r.url ∈ out.final.visited ∧ r.url ∉ out.final.queue) ∧
    (∀ (st : CrawlState) (n : Nat) (cur : String) (rest : List String)
      (msg : String),
      st.queue = cur :: rest → st.visited.length < maxPages →
      cancelled n = false → ¬ st.visited.contains cur = true →
      site cur = .error msg →
      crawlLoop site sessionId startUrl maxPages smartDedup cancelled st n =
        (let o2 := crawlLoop site sessionId startUrl maxPages smartDedup cancelled
          (errorState st cur rest msg) (n + 1)
        ⟨o2.final, o2.finalN,
         progressEvent maxPages st cur rest :: o2.events,
         (n, st) :: o2.trace⟩)) := by
  intro site sessionId startUrl maxPages smartDedup cancelled out hout
  obtain ⟨b1, b2, b3, b4, b5, b6, b7, b8⟩ :=
    crawlLoop_basic site sessionId startUrl maxPages smartDedup cancelled
      (initState startUrl) 0 out hout
  obtain ⟨i1, i2, i3⟩ :=
    crawlLoop_inv site sessionId startUrl maxPages smartDedup cancelled
      (initState startUrl) 0 out hout (crawlInv_init site maxPages startUrl)
  have hfin : (out.finalN, out.final) ∈ out.trace := List.mem_of_mem_getLast? b2
  obtain ⟨hQnd, hQdis, hVnd, hLen, hIds, hRes, hBud⟩ := i1 _ hfin
  refine ⟨hIds, ?_, ?_⟩
  · intro r hr
    obtain ⟨hurl, hfact⟩ := hRes r hr
    exact ⟨hfact, hurl, fun hmem => hQdis r.url hmem hurl⟩
  · intro st n cur rest msg hq hmax hcan hv hsite
    exact crawlLoop_error hq ⟨hmax, hcan⟩ hv hsite

/-- C9 witness: the unfolding equation applied to a concrete failing
page. -/
theorem spec_C9_witness :
    crawlLoop (fun _ => Except.error "x") "s" "u" 1 false (fun _ => false)
      (initState "u") 0 =
      (let o2 := crawlLoop (fun _ => Except.error "x") "s" "u" 1 false
        (fun _ => false) (errorState (initState "u") "u" [] "x") 1
      ⟨o2.final, o2.finalN,
       progressEvent 1 (initState "u") "u" [] :: o2.events,
       (0, initState "u") :: o2.trace⟩) :=
  (spec_C9 (fun _ => Except.error "x") "s" "u" 1 false (fun _ => false)
      (crawlLoop (fun _ => Except.error "x") "s" "u" 1 false (fun _ => false)
        (initState "u") 0) rfl).2.2
    (initState "u") 0 "u" [] "x" (by decide) (by decide) (by decide)
    (by decide) rfl

/-! ## C7, C8: terminal event and cancellation -/

/-- C7.  For every live session (one present in the registry), the crawl
driver emits exactly one terminal `complete` event, as the last event, on
every exit path — normal completion, cancellation (any `cancelled`
schedule) or browser-setup failure — carrying the processed count equal to
the length of the carried result log (the loop's full result log when the
loop ran); and the session is removed from the registry. -/
theorem spec_C7 :
    ∀ (site : String → Except String (String × List String))
      (sessionId startUrl : String) (maxPages : Nat) (smartDedup : Bool)
      (cancelled : Nat → Bool) (launchOk : Bool) (registry reg' : List String)
      (evs : List CrawlEvent),
    registry.contains sessionId = true →
    crawlWebsite site sessionId startUrl maxPages smartDedup cancelled launchOk
      registry = (reg', evs) →
    reg' = registry.erase sessionId ∧
    evs.countP isCompleteEvent = 1 ∧
    (∃ res : List PageResult,
      evs.getLast? = some (.complete sessionId res.length res)) ∧
    (launchOk = true →
      evs.getLast? = some (.complete sessionId
        (crawlLoop site sessionId startUrl maxPages smartDedup cancelled
          (initState startUrl) 0).final.results.length
        (crawlLoop site sessionId startUrl maxPages smartDedup cancelled
          (initState startUrl) 0).final.results)) := by
  intro site sessionId startUrl maxPages smartDedup cancelled launchOk
    registry reg' evs hreg hout
  unfold crawlWebsite at hout
  rw [if_pos hreg] at hout
  cases launchOk with
  | true =>
    simp only [if_true] at hout
    obtain ⟨b1, b2, b3, b4, b5, b6, b7, b8⟩ :=
      crawlLoop_basic site sessionId startUrl maxPages smartDedup cancelled
        (initState startUrl) 0 _ rfl
    injection hout with h1 h2
    subst h1
    subst h2
    refine ⟨rfl, ?_, ?_, ?_⟩
    · rw [List.countP_append, b8]
      simp [isCompleteEvent]
    · exact ⟨_, List.getLast?_concat _⟩
    · intro _
      exact List.getLast?_concat _
  | false =>
    simp only [Bool.false_eq_true, if_false] at hout
    injection hout with h1 h2
    subst h1
    subst h2
    refine ⟨rfl, ?_, ?_, ?_⟩
    · simp [isCompleteEvent]
    · exact ⟨[], rfl⟩
    · intro hcontra
      cases hcontra

/-- C7 witness: the theorem applied to a session whose browser setup
fails, the path on which only the terminal event is emitted. -/
theorem spec_C7_witness :
    ([] : List String) = ["s"].erase "s" ∧
    ([CrawlEvent.complete "s" 0 []].countP isCompleteEvent) = 1 :=
  have h := spec_C7 (fun _ => Except.error "x") "s" "u" 5 false (fun _ => false)
    false ["s"] [] [CrawlEvent.complete "s" 0 []] (by decide) (by decide)
  ⟨h.1, h.2.1⟩

/-- C8.  With a monotone cancellation flag that is set by iteration `k`,
the orchestrator observes the flag at the top of an iteration and exits
without dequeuing another URL: at most `k` pages are dequeued (at most `k`
progress events are emitted), the loop's final check index is at most `k`,
and exactly one terminal event is emitted, after which no further events
follow. -/
theorem spec_C8 :
    ∀ (site : String → Except String (String × List String))
      (sessionId startUrl : String) (maxPages : Nat) (smartDedup : Bool)
      (cancelled : Nat → Bool) (launchOk : Bool) (registry reg' : List String)
      (evs : List CrawlEvent) (k : Nat),
    (∀ i j, i ≤ j → cancelled i = true → cancelled j = true) →
    cancelled k = true →
    registry.contains sessionId = true →
    crawlWebsite site sessionId startUrl maxPages smartDedup cancelled launchOk
      registry = (reg', evs) →
    evs.countP isProgressEvent ≤ k ∧
    (launchOk = true →
      (crawlLoop site sessionId startUrl maxPages smartDedup cancelled
        (initState startUrl) 0).finalN ≤ k) ∧
    evs.countP isCompleteEvent = 1 ∧
    (∃ (tot : Nat) (res : List PageResult),
      evs.getLast? = some (.complete sessionId tot res)) := by
  intro site sessionId startUrl maxPages smartDedup cancelled launchOk
    registry reg' evs k hmono hk hreg hout
  unfold crawlWebsite at hout
  rw [if_pos hreg] at hout
  cases launchOk with
  | true =>
    simp only [if_true] at hout
    obtain ⟨b1, b2, b3, b4, b5, b6, b7, b8⟩ :=
      crawlLoop_basic site sessionId startUrl maxPages smartDedup cancelled
        (initState startUrl) 0 _ rfl
    injection hout with h1 h2
    subst h1
    subst h2
    have hfk : (crawlLoop site sessionId startUrl maxPages smartDedup cancelled
        (initState startUrl) 0).finalN ≤ k := by
      by_contra hgt
      push_neg at hgt
      have hfalse := b6 k (Nat.zero_le k) hgt
      rw [hk] at hfalse
      cases hfalse
    refine ⟨?_, fun _ => hfk, ?_, ?_⟩
    · rw [List.countP_append]
      have : List.countP isProgressEvent [CrawlEvent.complete sessionId
          (crawlLoop site sessionId startUrl maxPages smartDedup cancelled
            (initState startUrl) 0).final.results.length
          (crawlLoop site sessionId startUrl maxPages smartDedup cancelled
            (initState startUrl) 0).final.results] = 0 := by
        simp [isProgressEvent]
      rw [this]
      omega
    · rw [List.countP_append, b8]
      simp [isCompleteEvent]
    · exact ⟨_, _, List.getLast?_concat _⟩
  | false =>
    simp only [Bool.false_eq_true, if_false] at hout
    injection hout with h1 h2
    subst h1
    subst h2
    refine ⟨?_, ?_, ?_, ?_⟩
    · simp [isProgressEvent]
    · intro hcontra
      cases hcontra
    · simp [isCompleteEvent]
    · exact ⟨0, [], rfl⟩

/-- C8 witness: the theorem applied to a session cancelled from the
start. -/
theorem spec_C8_witness :
    ([CrawlEvent.complete "s" 0 []].countP isProgressEvent) ≤ 0 ∧
    ([CrawlEvent.complete "s" 0 []].countP isCompleteEvent) = 1 :=
  have h := spec_C8 (fun _ => Except.error "x") "s" "u" 5 false (fun _ => true)
    false ["s"] [] [CrawlEvent.complete "s" 0 []] 0
    (fun _ _ _ hc => hc) (by decide) (by decide) (by decide)
  ⟨h.1, h.2.2.1⟩
